import Mathlib

/-!
Verification of the link-resolver core of the AutoAttendDevArc application
(source: src/src/App.tsx).  The resolvers are pure string functions; we embed
them over List Char.  JavaScript strings are modelled as lists of characters,
and the WHATWG URL constructor used by the source (new URL) is modelled by
URL.parse below, restricted to the http and https schemes: other schemes,
IPv6 bracket hosts, percent-decoding inside hostnames and UTF-8 percent
encoding of code points above 255 are outside the fragment exercised by the
resolvers and are modelled as parse failures, respectively as a simplified
single-byte escape.  Within that fragment the model follows the WHATWG
algorithm: tab and newline stripping, scheme case-insensitivity, flexible
authority slashes, userinfo and port splitting, host lowercasing and
forbidden-character validation, backslash-to-slash conversion, dot-segment
resolution and percent-encoding of unsafe code points in the path, query and
fragment.
-/

/-! Character helpers -/

def lowerChar (c : Char) : Char :=
  if 'A' ≤ c ∧ c ≤ 'Z' then Char.ofNat (c.toNat + 32) else c

def jsWs (c : Char) : Bool :=
  c == ' ' || c == '\t' || c == '\n' || c == '\r' || c == '\x0b' || c == '\x0c' ||
  c == '\u00A0' || c == '\u2028' || c == '\u2029' || c == '\uFEFF'

def jsTrim (l : List Char) : List Char :=
  ((l.dropWhile jsWs).reverse.dropWhile jsWs).reverse

def urlCtl (c : Char) : Bool :=
  c == '\t' || c == '\n' || c == '\r'

def stripCtl (l : List Char) : List Char :=
  l.filter (fun c => !urlCtl c)

def isSlashC (c : Char) : Bool := c == '/' || c == '\\'

def isDelimC (c : Char) : Bool := c == '/' || c == '\\' || c == '?' || c == '#'

def hostCharOk (c : Char) : Bool :=
  decide (33 ≤ c.toNat) && decide (c.toNat ≤ 126) &&
  !(c == '#' || c == '/' || c == ':' || c == '<' || c == '>' || c == '?' ||
    c == '@' || c == '[' || c == '\\' || c == ']' || c == '^' || c == '|' || c == '%')

def encodeP (c : Char) : Bool :=
  decide (c.toNat ≤ 32) || decide (127 ≤ c.toNat) ||
  c == '\x22' || c == '<' || c == '>' || c == '\x60' || c == '\x7b' || c == '\x7d'

def hexTable : List Char := (r"0123456789ABCDEF").data

def hexDigitOf (n : Nat) : Char := hexTable.getD n '0'

def pctEncodeChar (c : Char) : List Char :=
  if encodeP c then ['%', hexDigitOf (c.toNat / 16), hexDigitOf (c.toNat % 16)] else [c]

def pctEncode : List Char → List Char
  | [] => []
  | c :: rest => pctEncodeChar c ++ pctEncode rest

def slashFix (c : Char) : Char := if c = '\\' then '/' else c

/-! Generic list-of-char utilities -/

def splitOnChar (sep : Char) : List Char → List (List Char)
  | [] => [[]]
  | c :: rest =>
    match splitOnChar sep rest with
    | [] => [[]]
    | s :: ss => if c = sep then [] :: s :: ss else (c :: s) :: ss

def joinWith (sep : Char) : List (List Char) → List Char
  | [] => []
  | [s] => s
  | s :: ss => s ++ sep :: joinWith sep ss

def resolveDotSegs : List (List Char) → List (List Char) → List (List Char)
  | acc, [] => acc
  | acc, seg :: rest =>
    if seg = ['.'] then (if rest = [] then acc ++ [[]] else resolveDotSegs acc rest)
    else if seg = ['.', '.'] then
      (if rest = [] then acc.dropLast ++ [[]] else resolveDotSegs acc.dropLast rest)
    else resolveDotSegs (acc ++ [seg]) rest

def afterLastAt (l : List Char) : List Char :=
  (l.reverse.takeWhile (fun c => !(c == '@'))).reverse

def stripTrailingSlashes (l : List Char) : List Char :=
  (l.reverse.dropWhile (fun c => c == '/')).reverse

def portVal (l : List Char) : Nat :=
  l.foldl (fun a c => a * 10 + (c.toNat - 48)) 0

/-! URL model -/

inductive Scheme where
  | http
  | https
deriving DecidableEq

def Scheme.str : Scheme → List Char
  | .http => (r"http").data
  | .https => (r"https").data

structure URL where
  scheme : Scheme
  host : List Char
  port : List Char
  pathname : List Char
  search : List Char
  hash : List Char
deriving DecidableEq

def schemeSplit (l : List Char) : Option (Scheme × List Char) :=
  if (l.take 6).map lowerChar = (r"https:").data then some (Scheme.https, l.drop 6)
  else if (l.take 5).map lowerChar = (r"http:").data then some (Scheme.http, l.drop 5)
  else none

def normalizePath (p : List Char) : List Char :=
  let q := pctEncode (p.map slashFix)
  match q with
  | '/' :: body => '/' :: joinWith '/' (resolveDotSegs [] (splitOnChar '/' body))
  | _ => q

def canonPort (sch : Scheme) (portRaw : List Char) : List Char :=
  if portRaw = [] then []
  else if sch = Scheme.https ∧ portRaw = ['4', '4', '3'] then []
  else if sch = Scheme.http ∧ portRaw = ['8', '0'] then []
  else portRaw

def queryFragSplit (qf : List Char) : List Char × List Char :=
  let q := qf.takeWhile (fun c => !(c == '#'))
  let h := qf.drop q.length
  (if q = [] then [] else '?' :: pctEncode (q.drop 1),
   if h = [] then [] else '#' :: pctEncode (h.drop 1))

def authOf (rest0 : List Char) : List Char :=
  (rest0.dropWhile isSlashC).takeWhile (fun c => !isDelimC c)

def afterOf (rest0 : List Char) : List Char :=
  (rest0.dropWhile isSlashC).drop (authOf rest0).length

def hostRawOf (rest0 : List Char) : List Char :=
  (afterLastAt (authOf rest0)).takeWhile (fun c => !(c == ':'))

def portRawOf (rest0 : List Char) : List Char :=
  ((afterLastAt (authOf rest0)).drop (hostRawOf rest0).length).drop 1

def hostOf (rest0 : List Char) : List Char := (hostRawOf rest0).map lowerChar

def pathPartOf (rest0 : List Char) : List Char :=
  (afterOf rest0).takeWhile (fun c => !(c == '?' || c == '#'))

def qfOf (rest0 : List Char) : List Char :=
  (afterOf rest0).drop (pathPartOf rest0).length

def parseAfterScheme (sch : Scheme) (rest0 : List Char) : Option URL :=
  if hostOf rest0 = [] then none
  else if (hostOf rest0).all hostCharOk && (portRawOf rest0).all Char.isDigit &&
          decide (portVal (portRawOf rest0) ≤ 65535) then
    some ⟨sch, hostOf rest0, canonPort sch (portRawOf rest0),
          if pathPartOf rest0 = [] then ['/'] else normalizePath (pathPartOf rest0),
          (queryFragSplit (qfOf rest0)).1, (queryFragSplit (qfOf rest0)).2⟩
  else none

def URL.parse (input : List Char) : Option URL :=
  match schemeSplit (stripCtl input) with
  | none => none
  | some (sch, rest) => parseAfterScheme sch rest

def URL.toString (u : URL) : List Char :=
  u.scheme.str ++ (':' :: '/' :: '/' :: []) ++ u.host ++
  (if u.port = [] then [] else ':' :: u.port) ++ u.pathname ++ u.search ++ u.hash

/-! Well-formedness of parsed URLs: every output of URL.parse satisfies wf,
and wf URLs serialize and re-parse to themselves. -/

def segOk (s : List Char) : Bool := !(s == ['.']) && !(s == ['.', '.'])

def pathCharOk (c : Char) : Bool :=
  !(c == '?') && !(c == '#') && !(c == '\\') && !encodeP c

def searchCharOk (c : Char) : Bool := !(c == '#') && !encodeP c

def pathWf : List Char → Bool
  | '/' :: body => body.all pathCharOk && (splitOnChar '/' body).all segOk
  | _ => false

def searchWf : List Char → Bool
  | [] => true
  | '?' :: q => q.all searchCharOk
  | _ => false

def hashWf : List Char → Bool
  | [] => true
  | '#' :: h => h.all (fun c => !encodeP c)
  | _ => false

def URL.wf (u : URL) : Bool :=
  !(u.host == []) && u.host.all hostCharOk && (u.host.map lowerChar == u.host) &&
  u.port.all Char.isDigit && decide (portVal u.port ≤ 65535) &&
  !(u.scheme == Scheme.https && u.port == ['4', '4', '3']) &&
  !(u.scheme == Scheme.http && u.port == ['8', '0']) &&
  pathWf u.pathname && searchWf u.search && hashWf u.hash

/-! The application data model (src/src/App.tsx, type ParsedMeet). -/

inductive ParsedMeet where
  | code : List Char → List Char → ParsedMeet
  | lookup : List Char → List Char → ParsedMeet
  | url : List Char → List Char → ParsedMeet
deriving DecidableEq

def ParsedMeet.getUrl : ParsedMeet → List Char
  | .code _ u => u
  | .lookup _ u => u
  | .url _ u => u

/-! Grammars (the regular expressions of the source, as decidable predicates).
isMeetCode is the anchored case-insensitive pattern of three alphabetic
segments of lengths 3, 4, 3 joined by hyphens. -/

def isMeetCode (l : List Char) : Bool :=
  (l.length == 12) && (l.getD 3 'x' == '-') && (l.getD 8 'x' == '-') &&
  (([0, 1, 2, 4, 5, 6, 7, 9, 10, 11] : List Nat).all (fun i => (l.getD i 'x').isAlpha))

def lookupMatch (p : List Char) : Option (List Char) :=
  if ((p.take 8).map lowerChar == ['/', 'l', 'o', 'o', 'k', 'u', 'p', '/']) &&
     !(p.drop 8 == []) && (p.drop 8).all (fun c => !(c == '/')) then
    some (p.drop 8)
  else none

def slashCodeMatch (p : List Char) : Option (List Char) :=
  match p with
  | '/' :: c => if isMeetCode c then some c else none
  | _ => none

def inviteChar (c : Char) : Bool := c.isAlphanum || c == '_' || c == '-'

def isInviteToken (l : List Char) : Bool :=
  decide (10 ≤ l.length) && l.all inviteChar

def firstSeg (p : List Char) : Option (List Char) :=
  ((splitOnChar '/' p).filter (fun s => !(s == []))).head?

/-! The resolvers (parseGoogleMeet, parseWhatsAppGroupLink,
normalizeExternalUrl of src/src/App.tsx). meetRaw and waRaw are the
scheme-completion steps applied to the trimmed input before URL parsing. -/

def meetRaw (input : List Char) : List Char :=
  let raw0 := jsTrim input
  if (r"http://").data.isPrefixOf raw0 || (r"https://").data.isPrefixOf raw0 then raw0
  else if (r"meet.google.com/").data.isPrefixOf raw0 ||
          (r"g.co/meet/").data.isPrefixOf raw0 then (r"https://").data ++ raw0
  else raw0

def meetFromUrl (u : URL) : Option ParsedMeet :=
  if u.host = (r"g.co").data ∧
     (r"/meet/").data.isPrefixOf (u.pathname.map lowerChar) = true then
    if isMeetCode (stripTrailingSlashes (u.pathname.drop 6)) then
      some (.code ((stripTrailingSlashes (u.pathname.drop 6)).map lowerChar)
        ((r"https://meet.google.com/").data ++
          (stripTrailingSlashes (u.pathname.drop 6)).map lowerChar))
    else if stripTrailingSlashes (u.pathname.drop 6) = [] then none
    else some (.url ((r"/meet/").data ++ stripTrailingSlashes (u.pathname.drop 6))
      u.toString)
  else if ¬ u.host = (r"meet.google.com").data then none
  else
    match lookupMatch (stripTrailingSlashes u.pathname) with
    | some token =>
      some (.lookup token ((r"https://meet.google.com/lookup/").data ++ token))
    | none =>
      match slashCodeMatch (stripTrailingSlashes u.pathname) with
      | some c =>
        some (.code (c.map lowerChar)
          ((r"https://meet.google.com/").data ++ c.map lowerChar))
      | none =>
        if stripTrailingSlashes u.pathname ≠ [] ∧
           stripTrailingSlashes u.pathname ≠ ['/'] then
          some (.url (stripTrailingSlashes u.pathname)
            ((r"https://meet.google.com").data ++ stripTrailingSlashes u.pathname))
        else none

def parseGoogleMeet (input : List Char) : Option ParsedMeet :=
  let raw0 := jsTrim input
  if raw0 = [] then none
  else if isMeetCode raw0 then
    some (.code (raw0.map lowerChar) ((r"https://meet.google.com/").data ++ raw0.map lowerChar))
  else
    match URL.parse (meetRaw input) with
    | none => none
    | some u => meetFromUrl u

def waRaw (input : List Char) : List Char :=
  let raw0 := jsTrim input
  if (r"http://").data.isPrefixOf raw0 || (r"https://").data.isPrefixOf raw0 then raw0
  else if (r"chat.whatsapp.com/").data.isPrefixOf raw0 then (r"https://").data ++ raw0
  else raw0

def waFromUrl (u : URL) : Option (List Char) :=
  if ¬ u.host = (r"chat.whatsapp.com").data then none
  else
    match firstSeg u.pathname with
    | none => none
    | some code =>
      if isInviteToken code then some ((r"https://chat.whatsapp.com/").data ++ code)
      else none

def parseWhatsAppGroupLink (input : List Char) : Option (List Char) :=
  let raw0 := jsTrim input
  if raw0 = [] then none
  else
    match URL.parse (waRaw input) with
    | none => none
    | some u => waFromUrl u

def normalizeExternalUrl (raw : List Char) : List Char :=
  let v := jsTrim raw
  if v = [] then v
  else if (r"http://").data.isPrefixOf v || (r"https://").data.isPrefixOf v then v
  else (r"https://").data ++ v

/-- Restatement of section 4.3 of the specification, written from the spec
text rather than from the source, for comparison with normalizeExternalUrl:
trim; if empty, return empty; if already prefixed with either scheme, return
unchanged; otherwise prepend the https scheme prefix. -/
def normalizeExternalUrlSpec (input : List Char) : List Char :=
  let t := jsTrim input
  if t = [] then []
  else if (r"http://").data.isPrefixOf t = true ∨ (r"https://").data.isPrefixOf t = true then t
  else (r"https://").data ++ t

/-! Character-level lemmas: everything is reduced to facts about Char.toNat,
where omega can finish. -/

theorem char_toNat_inj {a b : Char} (h : a.toNat = b.toNat) : a = b := by
  have ha := Char.ofNat_toNat a
  have hb := Char.ofNat_toNat b
  rw [← ha, ← hb, h]

theorem char_beq_iff (c d : Char) : (c == d) = true ↔ c.toNat = d.toNat := by
  rw [beq_iff_eq]
  exact ⟨fun h => by rw [h], char_toNat_inj⟩

theorem char_le_toNat {a b : Char} : (a ≤ b) ↔ a.toNat ≤ b.toNat := Iff.rfl

theorem toNat_ofNat_small {n : Nat} (h : n < 55296) : (Char.ofNat n).toNat = n := by
  have hv : n.isValidChar := Or.inl h
  simp [Char.ofNat, hv, Char.ofNatAux, Char.toNat, UInt32.toNat, BitVec.toNat_ofNatLt]

theorem lowerChar_toNat (c : Char) :
    (lowerChar c).toNat = if 65 ≤ c.toNat ∧ c.toNat ≤ 90 then c.toNat + 32 else c.toNat := by
  unfold lowerChar
  by_cases h : 'A' ≤ c ∧ c ≤ 'Z'
  · have h1 : 65 ≤ c.toNat := h.1
    have h2 : c.toNat ≤ 90 := h.2
    rw [if_pos h, if_pos ⟨h1, h2⟩, toNat_ofNat_small (by omega)]
  · rw [if_neg h, if_neg ?_]
    intro hc
    exact h ⟨hc.1, hc.2⟩

theorem lowerChar_eq_self {c : Char} (h : ¬(65 ≤ c.toNat ∧ c.toNat ≤ 90)) :
    lowerChar c = c := by
  apply char_toNat_inj
  rw [lowerChar_toNat, if_neg h]

theorem lowerChar_idem (c : Char) : lowerChar (lowerChar c) = lowerChar c := by
  apply char_toNat_inj
  rw [lowerChar_toNat, lowerChar_toNat]
  split_ifs <;> omega

theorem isAlpha_iff_toNat (c : Char) :
    c.isAlpha = true ↔ (65 ≤ c.toNat ∧ c.toNat ≤ 90) ∨ (97 ≤ c.toNat ∧ c.toNat ≤ 122) := by
  simp only [Char.isAlpha, Char.isUpper, Char.isLower, Bool.or_eq_true, Bool.and_eq_true,
    decide_eq_true_eq]
  exact Iff.rfl

theorem isDigit_iff_toNat (c : Char) :
    c.isDigit = true ↔ 48 ≤ c.toNat ∧ c.toNat ≤ 57 := by
  simp only [Char.isDigit, Bool.and_eq_true, decide_eq_true_eq]
  exact Iff.rfl

theorem isAlphanum_iff_toNat (c : Char) :
    c.isAlphanum = true ↔ (48 ≤ c.toNat ∧ c.toNat ≤ 57) ∨ (65 ≤ c.toNat ∧ c.toNat ≤ 90) ∨
      (97 ≤ c.toNat ∧ c.toNat ≤ 122) := by
  simp only [Char.isAlphanum, Bool.or_eq_true, isAlpha_iff_toNat, isDigit_iff_toNat]
  tauto

theorem lowerChar_isAlpha (c : Char) : (lowerChar c).isAlpha = c.isAlpha := by
  by_cases h : c.isAlpha = true
  · rw [h]
    rw [isAlpha_iff_toNat] at h ⊢
    rw [lowerChar_toNat]
    split_ifs <;> omega
  · rw [Bool.not_eq_true] at h
    rw [h]
    rw [Bool.eq_false_iff, Ne, isAlpha_iff_toNat] at h ⊢
    rw [lowerChar_toNat]
    split_ifs <;> omega

theorem char_beq_eq_false_iff (c d : Char) : (c == d) = false ↔ ¬ c.toNat = d.toNat := by
  rw [Bool.eq_false_iff, Ne, char_beq_iff]

theorem jsWs_eq_false {c : Char} (h1 : 33 ≤ c.toNat) (h2 : c.toNat ≤ 126) :
    jsWs c = false := by
  cases hjs : jsWs c
  · rfl
  · exfalso
    simp only [jsWs, Bool.or_eq_true, beq_iff_eq] at hjs
    rcases hjs with ((((((((rfl | rfl) | rfl) | rfl) | rfl) | rfl) | rfl) | rfl) | rfl) | rfl <;>
      first
        | exact absurd h1 (by decide)
        | exact absurd h2 (by decide)

theorem urlCtl_eq_false {c : Char} (h1 : 33 ≤ c.toNat) : urlCtl c = false := by
  cases hc : urlCtl c
  · rfl
  · exfalso
    simp only [urlCtl, Bool.or_eq_true, beq_iff_eq] at hc
    rcases hc with (rfl | rfl) | rfl <;> exact absurd h1 (by decide)

theorem encodeP_range {c : Char} (h : encodeP c = false) :
    33 ≤ c.toNat ∧ c.toNat ≤ 126 := by
  simp only [encodeP, Bool.or_eq_false_iff, decide_eq_false_iff_not] at h
  obtain ⟨⟨⟨⟨⟨⟨⟨h1, h2⟩, _⟩, _⟩, _⟩, _⟩, _⟩, _⟩ := h
  omega

theorem hostCharOk_props {c : Char} (h : hostCharOk c = true) :
    33 ≤ c.toNat ∧ c.toNat ≤ 126 ∧ isDelimC c = false ∧ (c == ':') = false ∧
      (c == '@') = false ∧ isSlashC c = false := by
  simp only [hostCharOk, Bool.and_eq_true, Bool.not_eq_true', Bool.or_eq_false_iff,
    decide_eq_true_eq] at h
  obtain ⟨⟨h1, h2⟩, ⟨⟨⟨⟨⟨⟨⟨⟨⟨⟨⟨⟨c35, c47⟩, c58⟩, c60⟩, c62⟩, c63⟩, c64⟩, c91⟩, c92⟩, c93⟩, c94⟩, c124⟩, c37⟩⟩ := h
  refine ⟨h1, h2, ?_, c58, c64, ?_⟩
  · simp only [isDelimC, Bool.or_eq_false_iff]
    exact ⟨⟨⟨c47, c92⟩, c63⟩, c35⟩
  · simp only [isSlashC, Bool.or_eq_false_iff]
    exact ⟨c47, c92⟩

/-! List-level utility lemmas. -/

theorem mem_of_getElemQ {α : Type} {l : List α} {n : Nat} {a : α} (h : l[n]? = some a) :
    a ∈ l := by
  obtain ⟨hlt, rfl⟩ := List.getElem?_eq_some.mp h
  exact List.getElem_mem hlt

theorem getD_map_of_lt {f : Char → Char} {l : List Char} {n : Nat} {d : Char}
    (h : n < l.length) : (l.map f).getD n d = f (l.getD n d) := by
  rw [List.getD_eq_getElem?_getD, List.getD_eq_getElem?_getD, List.getElem?_map,
    List.getElem?_eq_getElem h]
  rfl

theorem getD_append_left {l₁ l₂ : List Char} {n : Nat} {d : Char} (h : n < l₁.length) :
    (l₁ ++ l₂).getD n d = l₁.getD n d := by
  rw [List.getD_eq_getElem?_getD, List.getD_eq_getElem?_getD, List.getElem?_append,
    if_pos h]

theorem getD_take_of_lt {l : List Char} {n k : Nat} {d : Char} (h : n < k) :
    (l.take k).getD n d = l.getD n d := by
  rw [List.getD_eq_getElem?_getD, List.getD_eq_getElem?_getD, List.getElem?_take, if_pos h]

theorem getD_mem_of_lt {l : List Char} {n : Nat} {d : Char} (h : n < l.length) :
    l.getD n d ∈ l := by
  rw [List.getD_eq_getElem?_getD, List.getElem?_eq_getElem h]
  exact List.getElem_mem h

theorem takeWhile_append_all {p : Char → Bool} {l₁ l₂ : List Char}
    (h : ∀ a ∈ l₁, p a = true) : (l₁ ++ l₂).takeWhile p = l₁ ++ l₂.takeWhile p := by
  induction l₁ with
  | nil => rfl
  | cons c t ih =>
    rw [List.cons_append, List.takeWhile_cons, if_pos (h c (List.mem_cons_self c t)),
      ih (fun a ha => h a (List.mem_cons_of_mem _ ha)), List.cons_append]

theorem dropWhile_append_all {p : Char → Bool} {l₁ l₂ : List Char}
    (h : ∀ a ∈ l₁, p a = true) : (l₁ ++ l₂).dropWhile p = l₂.dropWhile p := by
  induction l₁ with
  | nil => rfl
  | cons c t ih =>
    rw [List.cons_append, List.dropWhile_cons, if_pos (h c (List.mem_cons_self c t)),
      ih (fun a ha => h a (List.mem_cons_of_mem _ ha))]

theorem dropWhile_all_neg {p : Char → Bool} {l : List Char}
    (h : ∀ a ∈ l, p a = false) : l.dropWhile p = l := by
  cases l with
  | nil => rfl
  | cons c t =>
    rw [List.dropWhile_cons, if_neg]
    rw [h c (List.mem_cons_self c t)]
    exact Bool.false_ne_true

theorem dropWhile_idem (p : Char → Bool) (l : List Char) :
    (l.dropWhile p).dropWhile p = l.dropWhile p := by
  induction l with
  | nil => rfl
  | cons c t ih =>
    rw [List.dropWhile_cons]
    split_ifs with h
    · exact ih
    · rw [List.dropWhile_cons, if_neg h]

theorem jsTrim_eq_self {l : List Char} (h : ∀ c ∈ l, jsWs c = false) : jsTrim l = l := by
  unfold jsTrim
  rw [dropWhile_all_neg h, dropWhile_all_neg (fun c hc => h c (List.mem_reverse.mp hc)),
    List.reverse_reverse]

theorem stripCtl_eq_self {l : List Char} (h : ∀ c ∈ l, urlCtl c = false) :
    stripCtl l = l := by
  apply List.filter_eq_self.mpr
  intro a ha
  rw [h a ha]
  rfl

theorem mem_stripCtl {c : Char} {l : List Char} (h : c ∈ stripCtl l) : c ∈ l :=
  (List.mem_filter.mp h).1

theorem isPrefixOf_append_self (l t : List Char) : l.isPrefixOf (l ++ t) = true :=
  List.isPrefixOf_iff_prefix.mpr (List.prefix_append l t)

theorem eq_append_of_isPrefixOf {p l : List Char} (h : p.isPrefixOf l = true) :
    ∃ t, l = p ++ t := by
  obtain ⟨t, ht⟩ := List.isPrefixOf_iff_prefix.mp h
  exact ⟨t, ht.symm⟩

theorem take_append_of_length {l₁ l₂ : List Char} {n : Nat} (h : l₁.length = n) :
    (l₁ ++ l₂).take n = l₁ := by
  subst h
  exact List.take_left l₁ l₂

theorem drop_append_of_length {l₁ l₂ : List Char} {n : Nat} (h : l₁.length = n) :
    (l₁ ++ l₂).drop n = l₂ := by
  subst h
  exact List.drop_left l₁ l₂

theorem head_eq_of_prefix {l₁ l₂ : List Char} (h : l₁ <+: l₂) (hne : l₁ ≠ []) :
    l₂.head? = l₁.head? := by
  obtain ⟨t, rfl⟩ := h
  cases l₁ with
  | nil => exact absurd rfl hne
  | cons c r => rfl

/-! splitOnChar and joinWith lemmas. -/

theorem splitOnChar_ne_nil (sep : Char) (l : List Char) : splitOnChar sep l ≠ [] := by
  induction l with
  | nil => simp [splitOnChar]
  | cons c t ih =>
    rcases hs : splitOnChar sep t with _ | ⟨s, ss⟩
    · exact absurd hs ih
    · simp only [splitOnChar, hs]
      split <;> simp

theorem splitOnChar_cons_sep (sep : Char) (t : List Char) :
    splitOnChar sep (sep :: t) = [] :: splitOnChar sep t := by
  rcases hs : splitOnChar sep t with _ | ⟨s, ss⟩
  · exact absurd hs (splitOnChar_ne_nil _ _)
  · simp [splitOnChar, hs]

theorem splitOnChar_cons_of_ne {sep c : Char} {t : List Char} (h : ¬ c = sep)
    {s : List Char} {ss : List (List Char)} (hs : splitOnChar sep t = s :: ss) :
    splitOnChar sep (c :: t) = (c :: s) :: ss := by
  simp [splitOnChar, hs, h]

theorem splitOnChar_no_sep {sep : Char} {l : List Char} (h : ∀ a ∈ l, ¬ a = sep) :
    splitOnChar sep l = [l] := by
  induction l with
  | nil => rfl
  | cons c t ih =>
    have ht : ∀ a ∈ t, ¬ a = sep := fun a ha => h a (List.mem_cons_of_mem _ ha)
    rw [splitOnChar_cons_of_ne (h c (List.mem_cons_self _ _)) (ih ht)]

theorem splitOnChar_append_sep {sep : Char} (l₁ l₂ : List Char)
    (h : ∀ a ∈ l₁, ¬ a = sep) :
    splitOnChar sep (l₁ ++ sep :: l₂) = l₁ :: splitOnChar sep l₂ := by
  induction l₁ with
  | nil => exact splitOnChar_cons_sep sep l₂
  | cons c t ih =>
    have ht : ∀ a ∈ t, ¬ a = sep := fun a ha => h a (List.mem_cons_of_mem _ ha)
    rw [List.cons_append, splitOnChar_cons_of_ne (h c (List.mem_cons_self _ _)) (ih ht)]

theorem joinWith_cons₂ (sep : Char) (s t : List Char) (ts : List (List Char)) :
    joinWith sep (s :: t :: ts) = s ++ sep :: joinWith sep (t :: ts) := rfl

theorem joinWith_splitOnChar (sep : Char) (l : List Char) :
    joinWith sep (splitOnChar sep l) = l := by
  induction l with
  | nil => rfl
  | cons c t ih =>
    rcases hs : splitOnChar sep t with _ | ⟨s, ss⟩
    · exact absurd hs (splitOnChar_ne_nil _ _)
    · rw [hs] at ih
      by_cases h : c = sep
      · subst h
        rw [splitOnChar_cons_sep, hs, joinWith_cons₂, List.nil_append, ih]
      · rw [splitOnChar_cons_of_ne h hs]
        cases ss with
        | nil =>
          show c :: s = c :: t
          rw [show s = joinWith sep [s] from rfl, ih]
        | cons s2 ss2 =>
          rw [joinWith_cons₂]
          rw [joinWith_cons₂] at ih
          rw [List.cons_append, ih]

theorem splitOnChar_joinWith {sep : Char} {ss : List (List Char)} (hne : ss ≠ [])
    (h : ∀ s ∈ ss, ∀ a ∈ s, ¬ a = sep) : splitOnChar sep (joinWith sep ss) = ss := by
  induction ss with
  | nil => exact absurd rfl hne
  | cons s rest ih =>
    cases rest with
    | nil => exact splitOnChar_no_sep (h s (List.mem_cons_self _ _))
    | cons s2 ss2 =>
      rw [joinWith_cons₂, splitOnChar_append_sep _ _ (h s (List.mem_cons_self _ _))]
      rw [ih (by simp) (fun x hx => h x (List.mem_cons_of_mem _ hx))]

theorem splitOnChar_append_sep_end (sep : Char) (l : List Char) :
    splitOnChar sep (l ++ [sep]) = splitOnChar sep l ++ [[]] := by
  induction l with
  | nil =>
    rw [List.nil_append]
    show splitOnChar sep (sep :: []) = _
    rw [splitOnChar_cons_sep]
    rfl
  | cons c t ih =>
    by_cases h : c = sep
    · subst h
      rw [List.cons_append, splitOnChar_cons_sep, splitOnChar_cons_sep, ih,
        List.cons_append]
    · rcases hs : splitOnChar sep t with _ | ⟨s, ss⟩
      · exact absurd hs (splitOnChar_ne_nil _ _)
      · have h2 : splitOnChar sep (t ++ [sep]) = s :: (ss ++ [[]]) := by
          rw [ih, hs]
          rfl
        rw [List.cons_append, splitOnChar_cons_of_ne h h2,
          splitOnChar_cons_of_ne h hs]
        rfl

theorem splitOnChar_append_replicate (sep : Char) (l : List Char) (k : Nat) :
    splitOnChar sep (l ++ List.replicate k sep) =
      splitOnChar sep l ++ List.replicate k [] := by
  induction k with
  | zero => simp
  | succ n ih =>
    rw [List.replicate_succ' n sep, ← List.append_assoc, splitOnChar_append_sep_end, ih,
      List.replicate_succ' n, List.append_assoc]

theorem mem_splitOnChar_no_sep {sep : Char} {l s : List Char}
    (hs : s ∈ splitOnChar sep l) : ∀ a ∈ s, ¬ a = sep := by
  induction l generalizing s with
  | nil =>
    simp only [splitOnChar, List.mem_singleton] at hs
    subst hs
    intro a ha
    exact absurd ha (by simp)
  | cons c t ih =>
    rcases ht : splitOnChar sep t with _ | ⟨s1, ss⟩
    · exact absurd ht (splitOnChar_ne_nil _ _)
    · by_cases h : c = sep
      · subst h
        rw [splitOnChar_cons_sep] at hs
        rcases List.mem_cons.mp hs with rfl | hmem
        · intro a ha
          exact absurd ha (by simp)
        · exact ih hmem
      · rw [splitOnChar_cons_of_ne h ht] at hs
        rcases List.mem_cons.mp hs with rfl | hmem
        · intro a ha
          rcases List.mem_cons.mp ha with rfl | ha1
          · exact h
          · exact ih (ht ▸ List.mem_cons_self s1 ss) a ha1
        · exact ih (ht ▸ List.mem_cons_of_mem s1 hmem)

/-! stripTrailingSlashes, afterLastAt, pctEncode, resolveDotSegs lemmas. -/

theorem stripTrailingSlashes_idem (l : List Char) :
    stripTrailingSlashes (stripTrailingSlashes l) = stripTrailingSlashes l := by
  unfold stripTrailingSlashes
  rw [List.reverse_reverse, dropWhile_idem]

theorem stripTrailingSlashes_prefix (l : List Char) : stripTrailingSlashes l <+: l := by
  have h := List.dropWhile_suffix (l := l.reverse) (fun c => c == '/')
  have h2 := List.reverse_prefix.mpr h
  rwa [List.reverse_reverse] at h2

theorem stripTrailingSlashes_append_no_slash {l tok : List Char} (ht : tok ≠ [])
    (h : ∀ c ∈ tok, ¬ c = '/') : stripTrailingSlashes (l ++ tok) = l ++ tok := by
  unfold stripTrailingSlashes
  rw [List.reverse_append]
  rcases hv : tok.reverse with _ | ⟨c, r⟩
  · exact absurd (List.reverse_eq_nil_iff.mp hv) ht
  · have hc : c ∈ tok := List.mem_reverse.mp (hv ▸ List.mem_cons_self c r)
    rw [List.cons_append, List.dropWhile_cons, if_neg]
    · rw [← List.cons_append, ← hv, ← List.reverse_append, List.reverse_reverse]
    · rw [beq_iff_eq]
      exact h c hc

theorem stripTrailingSlashes_eq_self {tok : List Char} (h : ∀ c ∈ tok, ¬ c = '/') :
    stripTrailingSlashes tok = tok := by
  cases htok : tok with
  | nil => rfl
  | cons c r =>
    rw [← htok, show tok = [] ++ tok from rfl]
    exact stripTrailingSlashes_append_no_slash (htok ▸ List.cons_ne_nil c r) h

theorem stripTrailingSlashes_spec (l : List Char) :
    ∃ k, l = stripTrailingSlashes l ++ List.replicate k '/' := by
  refine ⟨(l.reverse.takeWhile (fun c => c == '/')).length, ?_⟩
  have hrep : l.reverse.takeWhile (fun c => c == '/') =
      List.replicate (l.reverse.takeWhile (fun c => c == '/')).length '/' := by
    rw [List.eq_replicate_iff]
    refine ⟨rfl, fun b hb => ?_⟩
    have := List.mem_takeWhile_imp hb
    exact beq_iff_eq.mp this
  calc l = (l.reverse.takeWhile (fun c => c == '/') ++
            l.reverse.dropWhile (fun c => c == '/')).reverse := by
        rw [List.takeWhile_append_dropWhile, List.reverse_reverse]
    _ = stripTrailingSlashes l ++ List.replicate
          (l.reverse.takeWhile (fun c => c == '/')).length '/' := by
        rw [List.reverse_append]
        unfold stripTrailingSlashes
        rw [show (l.reverse.takeWhile (fun c => c == '/')).reverse =
            List.replicate (l.reverse.takeWhile (fun c => c == '/')).length '/' by
          rw [← List.reverse_replicate, ← hrep]]

theorem afterLastAt_eq_self {l : List Char} (h : ∀ c ∈ l, (c == '@') = false) :
    afterLastAt l = l := by
  unfold afterLastAt
  rw [List.takeWhile_eq_self_iff.mpr, List.reverse_reverse]
  intro x hx
  rw [h x (List.mem_reverse.mp hx)]
  rfl

theorem pctEncode_append (a b : List Char) :
    pctEncode (a ++ b) = pctEncode a ++ pctEncode b := by
  induction a with
  | nil => rfl
  | cons c t ih => simp [pctEncode, ih]

theorem pctEncode_eq_self {l : List Char} (h : ∀ c ∈ l, encodeP c = false) :
    pctEncode l = l := by
  induction l with
  | nil => rfl
  | cons c t ih =>
    show pctEncodeChar c ++ pctEncode t = c :: t
    rw [pctEncodeChar, if_neg (by rw [h c (List.mem_cons_self _ _)]; exact Bool.false_ne_true),
      ih (fun a ha => h a (List.mem_cons_of_mem _ ha)), List.singleton_append]

theorem hexDigitOf_mem (n : Nat) : hexDigitOf n ∈ hexTable := by
  unfold hexDigitOf
  rw [List.getD_eq_getElem?_getD]
  rcases hg : hexTable[n]? with _ | x
  · show '0' ∈ hexTable
    decide
  · exact mem_of_getElemQ hg

theorem mem_pctEncode_strong {c : Char} {l : List Char} (h : c ∈ pctEncode l) :
    (c ∈ l ∧ encodeP c = false) ∨ c = '%' ∨ c ∈ hexTable := by
  induction l with
  | nil => exact absurd h (by simp [pctEncode])
  | cons a t ih =>
    rcases List.mem_append.mp h with h1 | h2
    · rw [pctEncodeChar] at h1
      by_cases he : encodeP a = true
      · rw [if_pos he] at h1
        simp only [List.mem_cons, List.mem_singleton, List.not_mem_nil, or_false] at h1
        rcases h1 with rfl | rfl | rfl
        · exact Or.inr (Or.inl rfl)
        · exact Or.inr (Or.inr (hexDigitOf_mem _))
        · exact Or.inr (Or.inr (hexDigitOf_mem _))
      · rw [if_neg he] at h1
        rcases List.mem_singleton.mp h1 with rfl
        exact Or.inl ⟨List.mem_cons_self _ _, Bool.not_eq_true _ ▸ Bool.of_not_eq_true he⟩
    · rcases ih h2 with ⟨hm, hsafe⟩ | hrest
      · exact Or.inl ⟨List.mem_cons_of_mem _ hm, hsafe⟩
      · exact Or.inr hrest

theorem pctEncode_safe {c : Char} {l : List Char} (h : c ∈ pctEncode l) :
    encodeP c = false := by
  rcases mem_pctEncode_strong h with ⟨_, hs⟩ | rfl | hx
  · exact hs
  · decide
  · have hall : ∀ x ∈ hexTable, encodeP x = false := by decide
    exact hall c hx

theorem segOk_iff (s : List Char) : segOk s = true ↔ ¬ s = ['.'] ∧ ¬ s = ['.', '.'] := by
  simp only [segOk, Bool.and_eq_true, Bool.not_eq_true', beq_eq_false_iff_ne, ne_eq]

theorem resolveDotSegs_no_dots {segs : List (List Char)} (acc : List (List Char))
    (h : ∀ s ∈ segs, segOk s = true) : resolveDotSegs acc segs = acc ++ segs := by
  induction segs generalizing acc with
  | nil => rw [resolveDotSegs, List.append_nil]
  | cons seg rest ih =>
    obtain ⟨h1, h2⟩ := (segOk_iff seg).mp (h seg (List.mem_cons_self _ _))
    rw [resolveDotSegs, if_neg h1, if_neg h2,
      ih (acc ++ [seg]) (fun s hs => h s (List.mem_cons_of_mem _ hs)), List.append_assoc,
      List.singleton_append]

theorem resolveDotSegs_ok {segs acc : List (List Char)}
    (hacc : ∀ s ∈ acc, segOk s = true) :
    ∀ s ∈ resolveDotSegs acc segs, segOk s = true := by
  induction segs generalizing acc with
  | nil =>
    rw [resolveDotSegs]
    exact hacc
  | cons seg rest ih =>
    intro s hs
    rw [resolveDotSegs] at hs
    by_cases h1 : seg = ['.']
    · rw [if_pos h1] at hs
      by_cases h2 : rest = []
      · rw [if_pos h2] at hs
        rcases List.mem_append.mp hs with hm | hm
        · exact hacc s hm
        · rw [List.mem_singleton.mp hm]
          decide
      · rw [if_neg h2] at hs
        exact ih hacc s hs
    · rw [if_neg h1] at hs
      by_cases h3 : seg = ['.', '.']
      · rw [if_pos h3] at hs
        have hdl : ∀ x ∈ acc.dropLast, segOk x = true :=
          fun x hx => hacc x (List.dropLast_subset acc hx)
        by_cases h4 : rest = []
        · rw [if_pos h4] at hs
          rcases List.mem_append.mp hs with hm | hm
          · exact hdl s hm
          · rw [List.mem_singleton.mp hm]
            decide
        · rw [if_neg h4] at hs
          exact ih hdl s hs
      · rw [if_neg h3] at hs
        refine ih ?_ s hs
        intro x hx
        rcases List.mem_append.mp hx with hm | hm
        · exact hacc x hm
        · rw [List.mem_singleton.mp hm]
          exact (segOk_iff seg).mpr ⟨h1, h3⟩

theorem resolveDotSegs_ne_nil {segs : List (List Char)} (acc : List (List Char))
    (h : segs ≠ []) : resolveDotSegs acc segs ≠ [] := by
  induction segs generalizing acc with
  | nil => exact absurd rfl h
  | cons seg rest ih =>
    rw [resolveDotSegs]
    by_cases h1 : seg = ['.']
    · rw [if_pos h1]
      by_cases h2 : rest = []
      · rw [if_pos h2]
        simp
      · rw [if_neg h2]
        exact ih _ h2
    · rw [if_neg h1]
      by_cases h3 : seg = ['.', '.']
      · rw [if_pos h3]
        by_cases h4 : rest = []
        · rw [if_pos h4]
          simp
        · rw [if_neg h4]
          exact ih _ h4
      · rw [if_neg h3]
        cases hr : rest with
        | nil =>
          rw [resolveDotSegs]
          simp
        | cons r rs =>
          rw [← hr]
          exact ih _ (hr ▸ List.cons_ne_nil r rs)

/-! Generic takeWhile and dropWhile structure lemmas. -/

theorem drop_length_takeWhile (p : Char → Bool) (l : List Char) :
    l.drop (l.takeWhile p).length = l.dropWhile p := by
  induction l with
  | nil => rfl
  | cons c t ih =>
    rw [List.takeWhile_cons, List.dropWhile_cons]
    split_ifs with h
    · simpa using ih
    · simp

theorem dropWhile_head_false {p : Char → Bool} {l t : List Char} {c : Char}
    (h : l.dropWhile p = c :: t) : p c = false := by
  induction l with
  | nil => simp at h
  | cons a t2 ih =>
    rw [List.dropWhile_cons] at h
    split_ifs at h with ha
    · exact ih h
    · cases h
      exact Bool.eq_false_iff.mpr ha

theorem map_lowerChar_idem (l : List Char) :
    (l.map lowerChar).map lowerChar = l.map lowerChar := by
  rw [List.map_map]
  exact List.map_congr_left (fun a _ => lowerChar_idem a)

theorem mem_joinWith {sep : Char} {c : Char} {ss : List (List Char)}
    (h : c ∈ joinWith sep ss) : c = sep ∨ ∃ s, s ∈ ss ∧ c ∈ s := by
  induction ss with
  | nil => exact absurd h (by simp [joinWith])
  | cons s rest ih =>
    cases rest with
    | nil => exact Or.inr ⟨s, List.mem_cons_self _ _, h⟩
    | cons s2 ss2 =>
      rw [joinWith_cons₂] at h
      rcases List.mem_append.mp h with h1 | h2
      · exact Or.inr ⟨s, List.mem_cons_self _ _, h1⟩
      · rcases List.mem_cons.mp h2 with rfl | h3
        · exact Or.inl rfl
        · rcases ih h3 with hsep | ⟨x, hx, hcx⟩
          · exact Or.inl hsep
          · exact Or.inr ⟨x, List.mem_cons_of_mem _ hx, hcx⟩

theorem mem_joinWith_of_mem (sep : Char) {c : Char} {s : List Char}
    {ss : List (List Char)} (hs : s ∈ ss) (hc : c ∈ s) : c ∈ joinWith sep ss := by
  induction ss with
  | nil => exact absurd hs (by simp)
  | cons s1 rest ih =>
    cases rest with
    | nil =>
      rcases List.mem_cons.mp hs with rfl | h2
      · exact hc
      · exact absurd h2 (by simp)
    | cons s2 ss2 =>
      rw [joinWith_cons₂]
      rcases List.mem_cons.mp hs with rfl | h2
      · exact List.mem_append.mpr (Or.inl hc)
      · exact List.mem_append.mpr (Or.inr (List.mem_cons_of_mem _ (ih h2)))

theorem mem_splitOnChar_subset {sep : Char} {l s : List Char}
    (hs : s ∈ splitOnChar sep l) : ∀ a ∈ s, a ∈ l := by
  intro a ha
  have := mem_joinWith_of_mem sep hs ha
  rwa [joinWith_splitOnChar] at this

theorem mem_resolveDotSegs_sub {s : List Char} {segs acc : List (List Char)}
    (h : s ∈ resolveDotSegs acc segs) : s ∈ acc ∨ s ∈ segs ∨ s = [] := by
  induction segs generalizing acc with
  | nil =>
    rw [resolveDotSegs] at h
    exact Or.inl h
  | cons seg rest ih =>
    rw [resolveDotSegs] at h
    by_cases h1 : seg = ['.']
    · rw [if_pos h1] at h
      by_cases h2 : rest = []
      · rw [if_pos h2] at h
        rcases List.mem_append.mp h with hm | hm
        · exact Or.inl hm
        · exact Or.inr (Or.inr (List.mem_singleton.mp hm))
      · rw [if_neg h2] at h
        rcases ih h with hm | hm | hm
        · exact Or.inl hm
        · exact Or.inr (Or.inl (List.mem_cons_of_mem _ hm))
        · exact Or.inr (Or.inr hm)
    · rw [if_neg h1] at h
      by_cases h3 : seg = ['.', '.']
      · rw [if_pos h3] at h
        by_cases h4 : rest = []
        · rw [if_pos h4] at h
          rcases List.mem_append.mp h with hm | hm
          · exact Or.inl (List.dropLast_subset acc hm)
          · exact Or.inr (Or.inr (List.mem_singleton.mp hm))
        · rw [if_neg h4] at h
          rcases ih h with hm | hm | hm
          · exact Or.inl (List.dropLast_subset acc hm)
          · exact Or.inr (Or.inl (List.mem_cons_of_mem _ hm))
          · exact Or.inr (Or.inr hm)
      · rw [if_neg h3] at h
        rcases ih h with hm | hm | hm
        · rcases List.mem_append.mp hm with hm2 | hm2
          · exact Or.inl hm2
          · exact Or.inr (Or.inl (List.mem_singleton.mp hm2 ▸ List.mem_cons_self _ _))
        · exact Or.inr (Or.inl (List.mem_cons_of_mem _ hm))
        · exact Or.inr (Or.inr hm)

/-! Character-class extraction lemmas for parsed components. -/

theorem pathCharOk_extract {c : Char} (h : pathCharOk c = true) :
    (c == '?') = false ∧ (c == '#') = false ∧ (c == '\\') = false ∧ encodeP c = false := by
  simp only [pathCharOk, Bool.and_eq_true, Bool.not_eq_true'] at h
  exact ⟨h.1.1.1, h.1.1.2, h.1.2, h.2⟩

theorem searchCharOk_extract {c : Char} (h : searchCharOk c = true) :
    (c == '#') = false ∧ encodeP c = false := by
  simp only [searchCharOk, Bool.and_eq_true, Bool.not_eq_true'] at h
  exact ⟨h.1, h.2⟩

theorem char_beq_lit_false (n : Nat) {c d : Char} (hd : d.toNat = n)
    (h : ¬ c.toNat = n) : (c == d) = false := by
  rw [char_beq_eq_false_iff, hd]
  exact h

theorem isDigit_facts {c : Char} (h : c.isDigit = true) :
    33 ≤ c.toNat ∧ c.toNat ≤ 126 ∧ isDelimC c = false ∧ (c == ':') = false ∧
      (c == '@') = false ∧ isSlashC c = false := by
  obtain ⟨h1, h2⟩ := (isDigit_iff_toNat c).mp h
  refine ⟨by omega, by omega, ?_, ?_, ?_, ?_⟩
  · simp only [isDelimC, Bool.or_eq_false_iff]
    exact ⟨⟨⟨char_beq_lit_false 47 (by decide) (by omega),
      char_beq_lit_false 92 (by decide) (by omega)⟩,
      char_beq_lit_false 63 (by decide) (by omega)⟩,
      char_beq_lit_false 35 (by decide) (by omega)⟩
  · exact char_beq_lit_false 58 (by decide) (by omega)
  · exact char_beq_lit_false 64 (by decide) (by omega)
  · simp only [isSlashC, Bool.or_eq_false_iff]
    exact ⟨char_beq_lit_false 47 (by decide) (by omega),
      char_beq_lit_false 92 (by decide) (by omega)⟩

/-! Path and query normalization: well-formedness of outputs and fixpoints. -/

theorem slashFix_not_backslash (c : Char) : (slashFix c == '\\') = false := by
  unfold slashFix
  split_ifs with h
  · decide
  · exact char_beq_lit_false 92 (by decide) (fun hx => h (char_toNat_inj (by rw [hx]; decide)))

theorem map_slashFix_eq_self {l : List Char} (h : ∀ c ∈ l, (c == '\\') = false) :
    l.map slashFix = l := by
  have : l.map slashFix = l.map id := by
    apply List.map_congr_left
    intro a ha
    unfold slashFix
    rw [if_neg]
    · rfl
    · intro hx
      rw [hx] at ha
      exact absurd (h _ ha) (by decide)
  rw [this, List.map_id]

theorem pathWf_mk {body : List Char} (hchars : ∀ c ∈ body, pathCharOk c = true)
    (hsegs : ∀ s ∈ splitOnChar '/' body, segOk s = true) :
    pathWf ('/' :: body) = true := by
  show (body.all pathCharOk && (splitOnChar '/' body).all segOk) = true
  rw [Bool.and_eq_true, List.all_eq_true, List.all_eq_true]
  exact ⟨hchars, hsegs⟩

theorem pathWf_extract {p : List Char} (h : pathWf p = true) :
    ∃ body, p = '/' :: body ∧ (∀ c ∈ body, pathCharOk c = true) ∧
      ∀ s ∈ splitOnChar '/' body, segOk s = true := by
  cases p with
  | nil => exact absurd h (by decide)
  | cons c body =>
    by_cases hc : c = '/'
    · subst hc
      have h2 : (body.all pathCharOk && (splitOnChar '/' body).all segOk) = true := h
      rw [Bool.and_eq_true, List.all_eq_true, List.all_eq_true] at h2
      exact ⟨body, rfl, h2.1, h2.2⟩
    · exfalso
      have : pathWf (c :: body) = false := by
        unfold pathWf
        split
        · rename_i heq
          exact absurd (List.cons.injEq _ _ _ _ ▸ heq).1 hc
        · rfl
      rw [this] at h
      exact Bool.false_ne_true h

theorem pctEncode_cons_safe {c : Char} (t : List Char) (h : encodeP c = false) :
    pctEncode (c :: t) = c :: pctEncode t := by
  show pctEncodeChar c ++ pctEncode t = c :: pctEncode t
  rw [pctEncodeChar, if_neg (by rw [h]; exact Bool.false_ne_true), List.singleton_append]

theorem slashFix_cases (c : Char) : slashFix c = '/' ∨ slashFix c = c := by
  unfold slashFix
  split_ifs
  · exact Or.inl rfl
  · exact Or.inr rfl

theorem normalizePath_wf {p : List Char} (hne : p ≠ [])
    (hhead : p.head? = some '/' ∨ p.head? = some '\\')
    (hq : ∀ c ∈ p, (c == '?') = false ∧ (c == '#') = false) :
    pathWf (normalizePath p) = true := by
  cases p with
  | nil => exact absurd rfl hne
  | cons c t =>
    have hc : slashFix c = '/' := by
      rcases hhead with hh | hh <;> rw [List.head?_cons, Option.some.injEq] at hh <;> subst hh
      · decide
      · decide
    have hmap : (c :: t).map slashFix = '/' :: t.map slashFix := by
      rw [List.map_cons, hc]
    have hbodychars : ∀ x ∈ pctEncode (t.map slashFix), pathCharOk x = true := by
      intro x hx
      rcases mem_pctEncode_strong hx with ⟨hm, hsafe⟩ | rfl | hmem
      · obtain ⟨c0, hc0, rfl⟩ := List.mem_map.mp hm
        obtain ⟨hq1, hq2⟩ := hq c0 (List.mem_cons_of_mem _ hc0)
        rcases slashFix_cases c0 with hs | hs <;> rw [hs]
        · decide
        · simp only [pathCharOk, Bool.and_eq_true, Bool.not_eq_true']
          refine ⟨⟨⟨hq1, hq2⟩, ?_⟩, ?_⟩
          · have := slashFix_not_backslash c0
            rwa [hs] at this
          · rw [hs] at hsafe
            exact hsafe
      · decide
      · revert hmem
        have : ∀ y ∈ hexTable, pathCharOk y = true := by decide
        exact this x
    have hsegsub : ∀ s ∈ resolveDotSegs [] (splitOnChar '/' (pctEncode (t.map slashFix))),
        (∀ a ∈ s, ¬ a = '/') := by
      intro s hs
      rcases mem_resolveDotSegs_sub hs with hm | hm | rfl
      · exact absurd hm (by simp)
      · exact mem_splitOnChar_no_sep hm
      · intro a ha
        exact absurd ha (by simp)
    unfold normalizePath
    rw [hmap, pctEncode_cons_safe _ (by decide)]
    apply pathWf_mk
    · intro x hx
      rcases mem_joinWith hx with rfl | ⟨s, hs, hxs⟩
      · decide
      · rcases mem_resolveDotSegs_sub hs with hm | hm | rfl
        · exact absurd hm (by simp)
        · exact hbodychars x (mem_splitOnChar_subset hm x hxs)
        · exact absurd hxs (by simp)
    · rw [splitOnChar_joinWith
        (resolveDotSegs_ne_nil _ (splitOnChar_ne_nil _ _)) hsegsub]
      exact resolveDotSegs_ok (by intro s hs; exact absurd hs (by simp))

theorem normalizePath_fixpoint {p : List Char} (h : pathWf p = true) :
    normalizePath p = p := by
  obtain ⟨body, rfl, hchars, hsegs⟩ := pathWf_extract h
  have hmap : ('/' :: body).map slashFix = '/' :: body := by
    apply map_slashFix_eq_self
    intro x hx
    rcases List.mem_cons.mp hx with rfl | hx2
    · decide
    · exact (pathCharOk_extract (hchars x hx2)).2.2.1
  have henc : pctEncode ('/' :: body) = '/' :: body := by
    apply pctEncode_eq_self
    intro x hx
    rcases List.mem_cons.mp hx with rfl | hx2
    · decide
    · exact (pathCharOk_extract (hchars x hx2)).2.2.2
  unfold normalizePath
  rw [hmap, henc]
  show '/' :: joinWith '/' (resolveDotSegs [] (splitOnChar '/' body)) = '/' :: body
  rw [resolveDotSegs_no_dots [] hsegs, List.nil_append, joinWith_splitOnChar]

theorem searchWf_extract {s : List Char} (h : searchWf s = true) :
    s = [] ∨ ∃ q, s = '?' :: q ∧ ∀ c ∈ q, searchCharOk c = true := by
  cases s with
  | nil => exact Or.inl rfl
  | cons c q =>
    by_cases hc : c = '?'
    · subst hc
      have h2 : q.all searchCharOk = true := h
      exact Or.inr ⟨q, rfl, List.all_eq_true.mp h2⟩
    · exfalso
      have : searchWf (c :: q) = false := by
        unfold searchWf
        split
        · rename_i heq
          exact absurd heq (by simp)
        · rename_i heq
          exact absurd (List.cons.injEq _ _ _ _ ▸ heq).1 hc
        · rfl
      rw [this] at h
      exact Bool.false_ne_true h

theorem hashWf_extract {s : List Char} (h : hashWf s = true) :
    s = [] ∨ ∃ q, s = '#' :: q ∧ ∀ c ∈ q, encodeP c = false := by
  cases s with
  | nil => exact Or.inl rfl
  | cons c q =>
    by_cases hc : c = '#'
    · subst hc
      have h2 : q.all (fun c => !encodeP c) = true := h
      refine Or.inr ⟨q, rfl, fun x hx => ?_⟩
      have := List.all_eq_true.mp h2 x hx
      rwa [Bool.not_eq_true'] at this
    · exfalso
      have : hashWf (c :: q) = false := by
        unfold hashWf
        split
        · rename_i heq
          exact absurd heq (by simp)
        · rename_i heq
          exact absurd (List.cons.injEq _ _ _ _ ▸ heq).1 hc
        · rfl
      rw [this] at h
      exact Bool.false_ne_true h

theorem searchWf_mk {q : List Char} (h : ∀ c ∈ q, searchCharOk c = true) :
    searchWf ('?' :: q) = true := by
  show q.all searchCharOk = true
  exact List.all_eq_true.mpr h

theorem hashWf_mk {q : List Char} (h : ∀ c ∈ q, encodeP c = false) :
    hashWf ('#' :: q) = true := by
  show q.all (fun c => !encodeP c) = true
  exact List.all_eq_true.mpr (fun x hx => by rw [h x hx]; rfl)

theorem queryFragSplit_wf (qf : List Char)
    (hshape : qf = [] ∨ qf.head? = some '?' ∨ qf.head? = some '#') :
    searchWf (queryFragSplit qf).1 = true ∧ hashWf (queryFragSplit qf).2 = true := by
  rcases hshape with rfl | hh | hh
  · exact ⟨rfl, rfl⟩
  · obtain ⟨t, rfl⟩ : ∃ t, qf = '?' :: t := by
      cases qf with
      | nil => exact absurd hh (by simp)
      | cons c t =>
        rw [List.head?_cons, Option.some.injEq] at hh
        exact ⟨t, by rw [hh]⟩
    constructor
    · show searchWf ('?' :: pctEncode (List.takeWhile (fun c => !(c == '#')) t)) = true
      apply searchWf_mk
      intro x hx
      rcases mem_pctEncode_strong hx with ⟨hm, hsafe⟩ | rfl | hmem
      · have := List.mem_takeWhile_imp hm
        rw [Bool.not_eq_true'] at this
        simp only [searchCharOk, Bool.and_eq_true, Bool.not_eq_true']
        exact ⟨this, hsafe⟩
      · decide
      · revert hmem
        have : ∀ y ∈ hexTable, searchCharOk y = true := by decide
        exact this x
    · show hashWf (if t.drop (List.takeWhile (fun c => !(c == '#')) t).length = []
          then []
          else '#' :: pctEncode
            ((t.drop (List.takeWhile (fun c => !(c == '#')) t).length).drop 1)) = true
      rw [drop_length_takeWhile]
      rcases hd : t.dropWhile (fun c => !(c == '#')) with _ | ⟨c, r⟩
      · exact rfl
      · have hc : c = '#' := by
          have := dropWhile_head_false hd
          rw [Bool.not_eq_false'] at this
          exact beq_iff_eq.mp this
        subst hc
        rw [if_neg (List.cons_ne_nil _ _)]
        show hashWf ('#' :: pctEncode r) = true
        exact hashWf_mk (fun x hx => pctEncode_safe hx)
  · obtain ⟨t, rfl⟩ : ∃ t, qf = '#' :: t := by
      cases qf with
      | nil => exact absurd hh (by simp)
      | cons c t =>
        rw [List.head?_cons, Option.some.injEq] at hh
        exact ⟨t, by rw [hh]⟩
    refine ⟨rfl, ?_⟩
    show hashWf ('#' :: pctEncode t) = true
    exact hashWf_mk (fun x hx => pctEncode_safe hx)

theorem queryFragSplit_eq (qf : List Char) :
    queryFragSplit qf =
      (if qf.takeWhile (fun c => !(c == '#')) = [] then []
       else '?' :: pctEncode ((qf.takeWhile (fun c => !(c == '#'))).drop 1),
       if qf.drop (qf.takeWhile (fun c => !(c == '#'))).length = [] then []
       else '#' :: pctEncode
         ((qf.drop (qf.takeWhile (fun c => !(c == '#'))).length).drop 1)) := rfl

theorem queryFragSplit_fixpoint {s h : List Char} (hs : searchWf s = true)
    (hh : hashWf h = true) : queryFragSplit (s ++ h) = (s, h) := by
  have hhcomp : ∀ t : List Char,
      List.takeWhile (fun c => !(c == '#')) h = ([] : List Char) ∧
        (h = [] ∨ h.head? = some '#') := by
    intro t
    rcases hashWf_extract hh with rfl | ⟨hb, rfl, hhb⟩
    · exact ⟨List.takeWhile_nil, Or.inl rfl⟩
    · refine ⟨?_, Or.inr rfl⟩
      rw [List.takeWhile_cons, if_neg (by decide)]
  obtain ⟨hhtw, hhshape⟩ := hhcomp []
  have hhash : (if h = [] then [] else '#' :: pctEncode (h.drop 1)) = h := by
    rcases hashWf_extract hh with rfl | ⟨hb, rfl, hhb⟩
    · rw [if_pos rfl]
    · rw [if_neg (List.cons_ne_nil _ _), List.drop_one, List.tail_cons,
        pctEncode_eq_self hhb]
  rcases searchWf_extract hs with rfl | ⟨q, rfl, hq⟩
  · rw [List.nil_append, queryFragSplit_eq, hhtw]
    rw [if_pos rfl, List.length_nil, List.drop_zero]
    rw [hhash]
  · have hq2 : ∀ c ∈ q, (fun c => !(c == '#')) c = true := by
      intro c hc
      show (!(c == '#')) = true
      rw [(searchCharOk_extract (hq c hc)).1]
      rfl
    have htw : List.takeWhile (fun c => !(c == '#')) (q ++ h) = q := by
      rw [takeWhile_append_all hq2, hhtw, List.append_nil]
    have hqenc : pctEncode q = q :=
      pctEncode_eq_self (fun c hc => (searchCharOk_extract (hq c hc)).2)
    rw [List.cons_append, queryFragSplit_eq,
      List.takeWhile_cons_of_pos (p := fun c => !(c == '#')) (by decide),
      htw, if_neg (List.cons_ne_nil _ _), List.drop_one, List.tail_cons, hqenc,
      List.length_cons, List.drop_succ_cons, drop_append_of_length rfl, hhash]

/-! canonPort lemmas. -/

theorem canonPort_cases (sch : Scheme) (p : List Char) :
    canonPort sch p = [] ∨ canonPort sch p = p := by
  unfold canonPort
  split_ifs
  · exact Or.inl rfl
  · exact Or.inl rfl
  · exact Or.inl rfl
  · exact Or.inr rfl

theorem canonPort_ok (sch : Scheme) (p : List Char) :
    (sch == Scheme.https && canonPort sch p == ['4', '4', '3']) = false ∧
      (sch == Scheme.http && canonPort sch p == ['8', '0']) = false := by
  unfold canonPort
  split_ifs with h1 h2 h3
  · constructor <;> simp
  · constructor <;> simp
  · constructor <;> simp
  · constructor
    · by_cases hs : sch = Scheme.https
      · rw [Bool.and_eq_false_iff]
        refine Or.inr (beq_eq_false_iff_ne.mpr ?_)
        intro hp
        exact h2 ⟨hs, hp⟩
      · rw [Bool.and_eq_false_iff]
        exact Or.inl (beq_eq_false_iff_ne.mpr hs)
    · by_cases hs : sch = Scheme.http
      · rw [Bool.and_eq_false_iff]
        refine Or.inr (beq_eq_false_iff_ne.mpr ?_)
        intro hp
        exact h3 ⟨hs, hp⟩
      · rw [Bool.and_eq_false_iff]
        exact Or.inl (beq_eq_false_iff_ne.mpr hs)

theorem canonPort_fixpoint {sch : Scheme} {p : List Char}
    (h1 : (sch == Scheme.https && p == ['4', '4', '3']) = false)
    (h2 : (sch == Scheme.http && p == ['8', '0']) = false) : canonPort sch p = p := by
  unfold canonPort
  split_ifs with ha hb hc
  · exact ha.symm
  · exfalso
    rw [hb.1, hb.2] at h1
    simp at h1
  · exfalso
    rw [hc.1, hc.2] at h2
    simp at h2
  · rfl

/-! Every parsed URL is well-formed. -/

theorem afterOf_shape (rest0 : List Char) :
    afterOf rest0 = [] ∨ ∃ c t, afterOf rest0 = c :: t ∧ isDelimC c = true := by
  unfold afterOf authOf
  rw [drop_length_takeWhile]
  rcases hd : (rest0.dropWhile isSlashC).dropWhile (fun c => !isDelimC c) with _ | ⟨c, t⟩
  · exact Or.inl rfl
  · refine Or.inr ⟨c, t, rfl, ?_⟩
    have := dropWhile_head_false hd
    rwa [Bool.not_eq_false'] at this

theorem pathPartOf_shape (rest0 : List Char) :
    pathPartOf rest0 = [] ∨
      ((pathPartOf rest0).head? = some '/' ∨ (pathPartOf rest0).head? = some '\\') := by
  rcases afterOf_shape rest0 with ha | ⟨c, t, ha, hd⟩
  · left
    unfold pathPartOf
    rw [ha, List.takeWhile_nil]
  · unfold pathPartOf
    rw [ha]
    by_cases hqh : (fun c => !(c == '?' || c == '#')) c = true
    · right
      rw [List.takeWhile_cons_of_pos (p := fun c => !(c == '?' || c == '#')) hqh, List.head?_cons]
      have hqh2 : (c == '?') = false ∧ (c == '#') = false := by
        have := hqh
        rw [Bool.not_eq_true', Bool.or_eq_false_iff] at this
        exact this
      simp only [isDelimC, Bool.or_eq_true] at hd
      rcases hd with ((hc | hc) | hc) | hc
      · left
        rw [Option.some.injEq]
        exact beq_iff_eq.mp hc
      · right
        rw [Option.some.injEq]
        exact beq_iff_eq.mp hc
      · rw [hqh2.1] at hc
        exact absurd hc Bool.false_ne_true
      · rw [hqh2.2] at hc
        exact absurd hc Bool.false_ne_true
    · left
      exact List.takeWhile_cons_of_neg (p := fun c => !(c == '?' || c == '#')) hqh

theorem qfOf_shape (rest0 : List Char) :
    qfOf rest0 = [] ∨ (qfOf rest0).head? = some '?' ∨ (qfOf rest0).head? = some '#' := by
  unfold qfOf pathPartOf
  rw [drop_length_takeWhile]
  rcases hd : (afterOf rest0).dropWhile (fun c => !(c == '?' || c == '#')) with _ | ⟨c, t⟩
  · exact Or.inl rfl
  · have hc := dropWhile_head_false hd
    rw [Bool.not_eq_false', Bool.or_eq_true] at hc
    rcases hc with hc | hc
    · right
      left
      rw [List.head?_cons, Option.some.injEq]
      exact beq_iff_eq.mp hc
    · right
      right
      rw [List.head?_cons, Option.some.injEq]
      exact beq_iff_eq.mp hc

theorem pathPartOf_chars (rest0 : List Char) :
    ∀ c ∈ pathPartOf rest0, (c == '?') = false ∧ (c == '#') = false := by
  intro c hc
  have := List.mem_takeWhile_imp hc
  rw [Bool.not_eq_true', Bool.or_eq_false_iff] at this
  exact this

theorem parseAfterScheme_wf {sch : Scheme} {rest0 : List Char} {u : URL}
    (h : parseAfterScheme sch rest0 = some u) : u.wf = true := by
  unfold parseAfterScheme at h
  by_cases h1 : hostOf rest0 = []
  · rw [if_pos h1] at h
    exact absurd h (by simp)
  rw [if_neg h1] at h
  by_cases h2 : ((hostOf rest0).all hostCharOk && (portRawOf rest0).all Char.isDigit &&
      decide (portVal (portRawOf rest0) ≤ 65535)) = true
  · rw [if_pos h2] at h
    rw [Option.some.injEq] at h
    subst h
    rw [Bool.and_eq_true, Bool.and_eq_true] at h2
    obtain ⟨⟨hhost, hdig⟩, hval⟩ := h2
    simp only [URL.wf, Bool.and_eq_true]
    refine ⟨⟨⟨⟨⟨⟨⟨⟨⟨?_, ?_⟩, ?_⟩, ?_⟩, ?_⟩, ?_⟩, ?_⟩, ?_⟩, ?_⟩, ?_⟩
    · rw [Bool.not_eq_true']
      exact beq_eq_false_iff_ne.mpr h1
    · exact hhost
    · show ((hostOf rest0).map lowerChar == hostOf rest0) = true
      unfold hostOf
      rw [map_lowerChar_idem]
      exact beq_self_eq_true _
    · rcases canonPort_cases sch (portRawOf rest0) with hc | hc <;> rw [hc]
      · rfl
      · exact hdig
    · rcases canonPort_cases sch (portRawOf rest0) with hc | hc <;> rw [hc]
      · rfl
      · exact hval
    · rw [Bool.not_eq_true']
      exact (canonPort_ok sch (portRawOf rest0)).1
    · rw [Bool.not_eq_true']
      exact (canonPort_ok sch (portRawOf rest0)).2
    · by_cases hp : pathPartOf rest0 = []
      · rw [if_pos hp]
        decide
      · rw [if_neg hp]
        rcases pathPartOf_shape rest0 with hs | hs
        · exact absurd hs hp
        · exact normalizePath_wf hp hs (pathPartOf_chars rest0)
    · exact (queryFragSplit_wf _ (qfOf_shape rest0)).1
    · exact (queryFragSplit_wf _ (qfOf_shape rest0)).2
  · rw [if_neg h2] at h
    exact absurd h (by simp)

theorem URL.parse_wf {s : List Char} {u : URL} (h : URL.parse s = some u) :
    u.wf = true := by
  unfold URL.parse at h
  rcases hs : schemeSplit (stripCtl s) with _ | ⟨sch, rest⟩
  · rw [hs] at h
    exact absurd h (by simp)
  · rw [hs] at h
    exact parseAfterScheme_wf h

/-! Roundtrip: well-formed URLs re-parse from their serialization. -/

theorem URL.wf_extract {u : URL} (h : u.wf = true) :
    u.host ≠ [] ∧ (∀ c ∈ u.host, hostCharOk c = true) ∧
      u.host.map lowerChar = u.host ∧ (∀ c ∈ u.port, Char.isDigit c = true) ∧
      portVal u.port ≤ 65535 ∧
      (u.scheme == Scheme.https && u.port == ['4', '4', '3']) = false ∧
      (u.scheme == Scheme.http && u.port == ['8', '0']) = false ∧
      pathWf u.pathname = true ∧ searchWf u.search = true ∧ hashWf u.hash = true := by
  simp only [URL.wf, Bool.and_eq_true] at h
  obtain ⟨⟨⟨⟨⟨⟨⟨⟨⟨hne, hall⟩, hlow⟩, hdig⟩, hval⟩, hd1⟩, hd2⟩, hp⟩, hs⟩, hh⟩ := h
  refine ⟨?_, List.all_eq_true.mp hall, beq_iff_eq.mp hlow, List.all_eq_true.mp hdig,
    of_decide_eq_true hval, ?_, ?_, hp, hs, hh⟩
  · rw [Bool.not_eq_true'] at hne
    exact beq_eq_false_iff_ne.mp hne
  · rw [Bool.not_eq_true'] at hd1
    exact hd1
  · rw [Bool.not_eq_true'] at hd2
    exact hd2

theorem scheme_str_chars (sch : Scheme) :
    ∀ c ∈ sch.str, 33 ≤ c.toNat ∧ c.toNat ≤ 126 := by
  cases sch <;> decide

theorem URL.toString_shape (u : URL) :
    u.toString = u.scheme.str ++ (':' :: '/' :: '/' :: []) ++
      (u.host ++ ((if u.port = [] then [] else ':' :: u.port) ++
        (u.pathname ++ (u.search ++ u.hash)))) := by
  unfold URL.toString
  simp only [List.append_assoc]

theorem wf_toString_chars {u : URL} (h : u.wf = true) :
    ∀ c ∈ u.toString, 33 ≤ c.toNat ∧ c.toNat ≤ 126 := by
  obtain ⟨hne, hhost, hlow, hdig, hval, hd1, hd2, hp, hs, hh⟩ := URL.wf_extract h
  intro c hc
  rw [URL.toString_shape] at hc
  rcases List.mem_append.mp hc with h1 | hc
  · rcases List.mem_append.mp h1 with h2 | h2
    · exact scheme_str_chars u.scheme c h2
    · rcases List.mem_cons.mp h2 with rfl | h3
      · decide
      · rcases List.mem_cons.mp h3 with rfl | h4
        · decide
        · rcases List.mem_cons.mp h4 with rfl | h5
          · decide
          · exact absurd h5 (by simp)
  rcases List.mem_append.mp hc with h1 | hc
  · obtain ⟨hh1, hh2⟩ := hostCharOk_props (hhost c h1)
    exact ⟨hh1, hh2.1⟩
  rcases List.mem_append.mp hc with h1 | hc
  · by_cases hport : u.port = []
    · rw [if_pos hport] at h1
      exact absurd h1 (by simp)
    · rw [if_neg hport] at h1
      rcases List.mem_cons.mp h1 with rfl | h1
      · decide
      · obtain ⟨hh1, hh2, _⟩ := isDigit_facts (hdig c h1)
        exact ⟨hh1, hh2⟩
  rcases List.mem_append.mp hc with h1 | hc
  · obtain ⟨body, hbody, hchars, _⟩ := pathWf_extract hp
    rw [hbody] at h1
    rcases List.mem_cons.mp h1 with rfl | h1
    · decide
    · obtain ⟨_, _, _, henc⟩ := pathCharOk_extract (hchars c h1)
      exact encodeP_range henc
  rcases List.mem_append.mp hc with h1 | h1
  · rcases searchWf_extract hs with hq | ⟨q, hq, hqc⟩
    · rw [hq] at h1
      exact absurd h1 (by simp)
    · rw [hq] at h1
      rcases List.mem_cons.mp h1 with rfl | h1
      · decide
      · exact encodeP_range (searchCharOk_extract (hqc c h1)).2
  · rcases hashWf_extract hh with hq | ⟨q, hq, hqc⟩
    · rw [hq] at h1
      exact absurd h1 (by simp)
    · rw [hq] at h1
      rcases List.mem_cons.mp h1 with rfl | h1
      · decide
      · exact encodeP_range (hqc c h1)

theorem wf_toString_stripCtl {u : URL} (h : u.wf = true) :
    stripCtl u.toString = u.toString :=
  stripCtl_eq_self (fun c hc => urlCtl_eq_false (wf_toString_chars h c hc).1)

theorem wf_toString_trim {u : URL} (h : u.wf = true) :
    jsTrim u.toString = u.toString :=
  jsTrim_eq_self (fun c hc =>
    jsWs_eq_false (wf_toString_chars h c hc).1 (wf_toString_chars h c hc).2)

theorem schemeSplit_https (R : List Char) :
    schemeSplit (Scheme.https.str ++ (':' :: '/' :: '/' :: []) ++ R) =
      some (Scheme.https, '/' :: '/' :: R) := by
  unfold schemeSplit
  rw [show (Scheme.https.str ++ (':' :: '/' :: '/' :: []) ++ R).take 6 =
      ('h' :: 't' :: 't' :: 'p' :: 's' :: ':' :: []) from rfl]
  rw [show (('h' :: 't' :: 't' :: 'p' :: 's' :: ':' :: []).map lowerChar) =
      ('h' :: 't' :: 't' :: 'p' :: 's' :: ':' :: []) from by decide]
  rw [if_pos rfl]
  rw [show (Scheme.https.str ++ (':' :: '/' :: '/' :: []) ++ R).drop 6 =
      '/' :: '/' :: R from rfl]

theorem schemeSplit_http (R : List Char) :
    schemeSplit (Scheme.http.str ++ (':' :: '/' :: '/' :: []) ++ R) =
      some (Scheme.http, '/' :: '/' :: R) := by
  unfold schemeSplit
  rw [show (Scheme.http.str ++ (':' :: '/' :: '/' :: []) ++ R).take 6 =
      ('h' :: 't' :: 't' :: 'p' :: ':' :: '/' :: []) from rfl]
  rw [show (('h' :: 't' :: 't' :: 'p' :: ':' :: '/' :: []).map lowerChar) =
      ('h' :: 't' :: 't' :: 'p' :: ':' :: '/' :: []) from by decide]
  rw [if_neg (by decide)]
  rw [show (Scheme.http.str ++ (':' :: '/' :: '/' :: []) ++ R).take 5 =
      ('h' :: 't' :: 't' :: 'p' :: ':' :: []) from rfl]
  rw [show (('h' :: 't' :: 't' :: 'p' :: ':' :: []).map lowerChar) =
      ('h' :: 't' :: 't' :: 'p' :: ':' :: []) from by decide]
  rw [if_pos rfl]
  rw [show (Scheme.http.str ++ (':' :: '/' :: '/' :: []) ++ R).drop 5 =
      '/' :: '/' :: R from rfl]

theorem parseAfterScheme_canonical (sch : Scheme) (host port path search hash : List Char)
    (hne : host ≠ []) (hhost : ∀ c ∈ host, hostCharOk c = true)
    (hlow : host.map lowerChar = host)
    (hdig : ∀ c ∈ port, Char.isDigit c = true) (hval : portVal port ≤ 65535)
    (hd1 : (sch == Scheme.https && port == ['4', '4', '3']) = false)
    (hd2 : (sch == Scheme.http && port == ['8', '0']) = false)
    (hp : pathWf path = true) (hs : searchWf search = true) (hh : hashWf hash = true) :
    parseAfterScheme sch ('/' :: '/' :: (host ++ ((if port = [] then [] else ':' :: port)
        ++ (path ++ (search ++ hash))))) =
      some ⟨sch, host, port, path, search, hash⟩ := by
  obtain ⟨h0, hr, rfl⟩ : ∃ a l, host = a :: l := by
    cases host with
    | nil => exact absurd rfl hne
    | cons a l => exact ⟨a, l, rfl⟩
  obtain ⟨body, rfl, hbchars, hbsegs⟩ := pathWf_extract hp
  have hstop : List.takeWhile (fun c => !isDelimC c) (('/' :: body) ++ (search ++ hash)) = [] := by
    rw [List.cons_append]
    exact List.takeWhile_cons_of_neg (p := fun c => !isDelimC c) (by decide)
  have hpredhost : ∀ c ∈ h0 :: hr, (fun c => !isDelimC c) c = true := by
    intro c hc
    show (!isDelimC c) = true
    rw [(hostCharOk_props (hhost c hc)).2.2.1]
    rfl
  have hpreddig : ∀ c ∈ port, (fun c => !isDelimC c) c = true := by
    intro c hc
    show (!isDelimC c) = true
    rw [(isDigit_facts (hdig c hc)).2.2.1]
    rfl
  have hA : List.dropWhile isSlashC ('/' :: '/' :: ((h0 :: hr) ++
      ((if port = [] then [] else ':' :: port) ++ (('/' :: body) ++ (search ++ hash))))) =
      (h0 :: hr) ++ ((if port = [] then [] else ':' :: port) ++
        (('/' :: body) ++ (search ++ hash))) := by
    rw [List.dropWhile_cons_of_pos (by decide), List.dropWhile_cons_of_pos (by decide),
      List.cons_append, List.dropWhile_cons_of_neg]
    intro hx
    rw [(hostCharOk_props (hhost h0 (List.mem_cons_self _ _))).2.2.2.2.2] at hx
    exact Bool.false_ne_true hx
  have hauth : authOf ('/' :: '/' :: ((h0 :: hr) ++
      ((if port = [] then [] else ':' :: port) ++ (('/' :: body) ++ (search ++ hash))))) =
      (h0 :: hr) ++ (if port = [] then [] else ':' :: port) := by
    unfold authOf
    rw [hA, takeWhile_append_all hpredhost]
    by_cases hport : port = []
    · rw [if_pos hport, List.nil_append, hstop]
    · rw [if_neg hport, List.cons_append ':' port (('/' :: body) ++ (search ++ hash)),
        List.takeWhile_cons_of_pos (p := fun c => !isDelimC c)
          (by decide : (fun c => !isDelimC c) ':' = true),
        takeWhile_append_all hpreddig, hstop, List.append_nil]
  have hafter : afterOf ('/' :: '/' :: ((h0 :: hr) ++
      ((if port = [] then [] else ':' :: port) ++ (('/' :: body) ++ (search ++ hash))))) =
      ('/' :: body) ++ (search ++ hash) := by
    unfold afterOf
    rw [hA, hauth, ← List.append_assoc]
    exact drop_append_of_length rfl
  have hlast : afterLastAt ((h0 :: hr) ++ (if port = [] then [] else ':' :: port)) =
      (h0 :: hr) ++ (if port = [] then [] else ':' :: port) := by
    apply afterLastAt_eq_self
    intro c hc
    rcases List.mem_append.mp hc with h1 | h1
    · exact (hostCharOk_props (hhost c h1)).2.2.2.2.1
    · by_cases hport : port = []
      · rw [if_pos hport] at h1
        exact absurd h1 (by simp)
      · rw [if_neg hport] at h1
        rcases List.mem_cons.mp h1 with rfl | h1
        · decide
        · exact (isDigit_facts (hdig c h1)).2.2.2.2.1
  have hhostraw : hostRawOf ('/' :: '/' :: ((h0 :: hr) ++
      ((if port = [] then [] else ':' :: port) ++ (('/' :: body) ++ (search ++ hash))))) =
      h0 :: hr := by
    unfold hostRawOf
    rw [hauth, hlast]
    have hpredcolon : ∀ c ∈ h0 :: hr, (fun c => !(c == ':')) c = true := by
      intro c hc
      show (!(c == ':')) = true
      rw [(hostCharOk_props (hhost c hc)).2.2.2.1]
      rfl
    rw [takeWhile_append_all hpredcolon]
    by_cases hport : port = []
    · rw [if_pos hport, List.takeWhile_nil, List.append_nil]
    · rw [if_neg hport,
        List.takeWhile_cons_of_neg (p := fun c => !(c == ':'))
          (by decide : ¬(fun c => !(c == ':')) ':' = true), List.append_nil]
  have hportraw : portRawOf ('/' :: '/' :: ((h0 :: hr) ++
      ((if port = [] then [] else ':' :: port) ++ (('/' :: body) ++ (search ++ hash))))) =
      port := by
    unfold portRawOf
    rw [hauth, hlast, hhostraw, drop_append_of_length rfl]
    by_cases hport : port = []
    · rw [if_pos hport, hport]
      rfl
    · rw [if_neg hport, List.drop_one, List.tail_cons]
  have hhostof : hostOf ('/' :: '/' :: ((h0 :: hr) ++
      ((if port = [] then [] else ':' :: port) ++ (('/' :: body) ++ (search ++ hash))))) =
      h0 :: hr := by
    unfold hostOf
    rw [hhostraw, hlow]
  have hpp : pathPartOf ('/' :: '/' :: ((h0 :: hr) ++
      ((if port = [] then [] else ':' :: port) ++ (('/' :: body) ++ (search ++ hash))))) =
      '/' :: body := by
    unfold pathPartOf
    rw [hafter]
    have hpredpath : ∀ c ∈ '/' :: body, (fun c => !(c == '?' || c == '#')) c = true := by
      intro c hc
      show (!(c == '?' || c == '#')) = true
      rcases List.mem_cons.mp hc with rfl | h1
      · decide
      · obtain ⟨hq1, hq2, _, _⟩ := pathCharOk_extract (hbchars c h1)
        rw [hq1, hq2]
        rfl
    rw [takeWhile_append_all hpredpath]
    have hqstop : List.takeWhile (fun c => !(c == '?' || c == '#')) (search ++ hash) = [] := by
      rcases searchWf_extract hs with rfl | ⟨q, rfl, hqc⟩
      · rw [List.nil_append]
        rcases hashWf_extract hh with rfl | ⟨q2, rfl, hqc2⟩
        · exact List.takeWhile_nil
        · exact List.takeWhile_cons_of_neg (p := fun c => !(c == '?' || c == '#')) (by decide)
      · rw [List.cons_append]
        exact List.takeWhile_cons_of_neg (p := fun c => !(c == '?' || c == '#')) (by decide)
    rw [hqstop, List.append_nil]
  have hqf : qfOf ('/' :: '/' :: ((h0 :: hr) ++
      ((if port = [] then [] else ':' :: port) ++ (('/' :: body) ++ (search ++ hash))))) =
      search ++ hash := by
    unfold qfOf
    rw [hafter, hpp]
    exact drop_append_of_length rfl
  unfold parseAfterScheme
  rw [hhostof, hportraw, hpp, hqf]
  rw [if_neg (List.cons_ne_nil h0 hr)]
  rw [if_pos (by
    rw [Bool.and_eq_true, Bool.and_eq_true]
    exact ⟨⟨List.all_eq_true.mpr hhost, List.all_eq_true.mpr hdig⟩, decide_eq_true hval⟩)]
  rw [if_neg (List.cons_ne_nil '/' body)]
  rw [canonPort_fixpoint hd1 hd2, normalizePath_fixpoint hp, queryFragSplit_fixpoint hs hh]

theorem URL.parse_toString {u : URL} (h : u.wf = true) :
    URL.parse u.toString = some u := by
  obtain ⟨hne, hhost, hlow, hdig, hval, hd1, hd2, hp, hs, hh⟩ := URL.wf_extract h
  have hstrip := wf_toString_stripCtl h
  unfold URL.parse
  rw [hstrip, URL.toString_shape]
  have hsch : schemeSplit (u.scheme.str ++ (':' :: '/' :: '/' :: []) ++
      (u.host ++ ((if u.port = [] then [] else ':' :: u.port) ++
        (u.pathname ++ (u.search ++ u.hash))))) =
      some (u.scheme, '/' :: '/' :: (u.host ++ ((if u.port = [] then [] else ':' :: u.port) ++
        (u.pathname ++ (u.search ++ u.hash))))) := by
    cases hsc : u.scheme
    · exact schemeSplit_http _
    · exact schemeSplit_https _
  rw [hsch]
  show parseAfterScheme u.scheme ('/' :: '/' :: (u.host ++
    ((if u.port = [] then [] else ':' :: u.port) ++ (u.pathname ++ (u.search ++ u.hash))))) =
    some u
  rw [parseAfterScheme_canonical u.scheme u.host u.port u.pathname u.search u.hash
    hne hhost hlow hdig hval hd1 hd2 hp hs hh]

/-! isMeetCode facts. -/

theorem isMeetCode_extract {l : List Char} (h : isMeetCode l = true) :
    l.length = 12 ∧ l.getD 3 'x' = '-' ∧ l.getD 8 'x' = '-' ∧
      ∀ i ∈ ([0, 1, 2, 4, 5, 6, 7, 9, 10, 11] : List Nat), (l.getD i 'x').isAlpha = true := by
  simp only [isMeetCode, Bool.and_eq_true] at h
  obtain ⟨⟨⟨h1, h2⟩, h3⟩, h4⟩ := h
  exact ⟨beq_iff_eq.mp h1, beq_iff_eq.mp h2, beq_iff_eq.mp h3,
    List.all_eq_true.mp h4⟩

theorem isMeetCode_mk {l : List Char} (h1 : l.length = 12) (h2 : l.getD 3 'x' = '-')
    (h3 : l.getD 8 'x' = '-')
    (h4 : ∀ i ∈ ([0, 1, 2, 4, 5, 6, 7, 9, 10, 11] : List Nat), (l.getD i 'x').isAlpha = true) :
    isMeetCode l = true := by
  simp only [isMeetCode, Bool.and_eq_true]
  exact ⟨⟨⟨beq_iff_eq.mpr h1, beq_iff_eq.mpr h2⟩, beq_iff_eq.mpr h3⟩,
    List.all_eq_true.mpr h4⟩

theorem isMeetCode_false_of_length {l : List Char} (h : ¬ l.length = 12) :
    isMeetCode l = false := by
  cases hb : isMeetCode l
  · rfl
  · exact absurd (isMeetCode_extract hb).1 h

theorem isMeetCode_chars {l : List Char} (h : isMeetCode l = true) :
    ∀ c ∈ l, c.isAlpha = true ∨ c = '-' := by
  obtain ⟨hlen, h3, h8, halpha⟩ := isMeetCode_extract h
  intro c hc
  obtain ⟨i, hi, rfl⟩ := List.mem_iff_getElem.mp hc
  have hi12 : i < 12 := hlen ▸ hi
  have hgd : l.getD i 'x' = l[i] := List.getD_eq_getElem l 'x' hi
  interval_cases i
  · exact Or.inl (hgd ▸ halpha 0 (by decide))
  · exact Or.inl (hgd ▸ halpha 1 (by decide))
  · exact Or.inl (hgd ▸ halpha 2 (by decide))
  · exact Or.inr (hgd ▸ h3)
  · exact Or.inl (hgd ▸ halpha 4 (by decide))
  · exact Or.inl (hgd ▸ halpha 5 (by decide))
  · exact Or.inl (hgd ▸ halpha 6 (by decide))
  · exact Or.inl (hgd ▸ halpha 7 (by decide))
  · exact Or.inr (hgd ▸ h8)
  · exact Or.inl (hgd ▸ halpha 9 (by decide))
  · exact Or.inl (hgd ▸ halpha 10 (by decide))
  · exact Or.inl (hgd ▸ halpha 11 (by decide))

theorem encodeP_true_toNat {c : Char} (h : encodeP c = true) :
    c.toNat ≤ 32 ∨ 127 ≤ c.toNat ∨ c.toNat = 34 ∨ c.toNat = 60 ∨ c.toNat = 62 ∨
      c.toNat = 96 ∨ c.toNat = 123 ∨ c.toNat = 125 := by
  simp only [encodeP, Bool.or_eq_true, decide_eq_true_eq, char_beq_iff] at h
  rcases h with ((((((h | h) | h) | h) | h) | h) | h) | h
  · exact Or.inl h
  · exact Or.inr (Or.inl h)
  · refine Or.inr (Or.inr (Or.inl ?_))
    rw [h]
    decide
  · refine Or.inr (Or.inr (Or.inr (Or.inl ?_)))
    rw [h]
    decide
  · refine Or.inr (Or.inr (Or.inr (Or.inr (Or.inl ?_))))
    rw [h]
    decide
  · refine Or.inr (Or.inr (Or.inr (Or.inr (Or.inr (Or.inl ?_)))))
    rw [h]
    decide
  · refine Or.inr (Or.inr (Or.inr (Or.inr (Or.inr (Or.inr (Or.inl ?_))))))
    rw [h]
    decide
  · refine Or.inr (Or.inr (Or.inr (Or.inr (Or.inr (Or.inr (Or.inr ?_))))))
    rw [h]
    decide

theorem meetCodeChar_toNat {c : Char} (h : c.isAlpha = true ∨ c = '-') :
    (65 ≤ c.toNat ∧ c.toNat ≤ 90) ∨ (97 ≤ c.toNat ∧ c.toNat ≤ 122) ∨ c.toNat = 45 := by
  rcases h with h | rfl
  · rcases (isAlpha_iff_toNat c).mp h with h | h
    · exact Or.inl h
    · exact Or.inr (Or.inl h)
  · exact Or.inr (Or.inr rfl)

theorem meetCodeChar_facts {c : Char} (h : c.isAlpha = true ∨ c = '-') :
    jsWs c = false ∧ urlCtl c = false ∧ encodeP c = false ∧ ¬ c = '/' ∧
      pathCharOk c = true ∧ ¬ c = '.' := by
  have ht := meetCodeChar_toNat h
  have h33 : 33 ≤ c.toNat ∧ c.toNat ≤ 126 := by
    rcases ht with ⟨a, b⟩ | ⟨a, b⟩ | a <;> omega
  have henc : encodeP c = false := by
    cases hb : encodeP c
    · rfl
    · exfalso
      have := encodeP_true_toNat hb
      rcases ht with ⟨a, b⟩ | ⟨a, b⟩ | a <;> omega
  refine ⟨jsWs_eq_false h33.1 h33.2, urlCtl_eq_false h33.1, henc, ?_, ?_, ?_⟩
  · intro hx
    rw [hx] at ht
    revert ht
    decide
  · simp only [pathCharOk, Bool.and_eq_true, Bool.not_eq_true']
    refine ⟨⟨⟨?_, ?_⟩, ?_⟩, henc⟩
    · exact char_beq_lit_false 63 (by decide) (by rcases ht with ⟨a, b⟩ | ⟨a, b⟩ | a <;> omega)
    · exact char_beq_lit_false 35 (by decide) (by rcases ht with ⟨a, b⟩ | ⟨a, b⟩ | a <;> omega)
    · exact char_beq_lit_false 92 (by decide) (by rcases ht with ⟨a, b⟩ | ⟨a, b⟩ | a <;> omega)
  · intro hx
    rw [hx] at ht
    revert ht
    decide

theorem isMeetCode_map_lowerChar {l : List Char} (h : isMeetCode l = true) :
    isMeetCode (l.map lowerChar) = true := by
  obtain ⟨h1, h2, h3, h4⟩ := isMeetCode_extract h
  apply isMeetCode_mk
  · rw [List.length_map]
    exact h1
  · rw [getD_map_of_lt (by omega), h2]
    decide
  · rw [getD_map_of_lt (by omega), h3]
    decide
  · intro i hi
    have hi12 : i < 12 := by
      simp only [List.mem_cons, List.mem_singleton, List.not_mem_nil, or_false] at hi
      rcases hi with rfl | rfl | rfl | rfl | rfl | rfl | rfl | rfl | rfl | rfl <;> omega
    rw [getD_map_of_lt (by omega), lowerChar_isAlpha]
    exact h4 i hi

/-! A bare meeting code can never parse as a URL: it has no scheme. -/

theorem not_isPrefixOf_of_getD {p l : List Char} (i : Nat) (hi : i < p.length)
    (hne : ¬ l.getD i 'x' = p.getD i 'x') : p.isPrefixOf l = false := by
  cases hb : p.isPrefixOf l
  · rfl
  · exfalso
    obtain ⟨t, rfl⟩ := eq_append_of_isPrefixOf hb
    rw [getD_append_left hi] at hne
    exact hne rfl

theorem not_isPrefixOf_of_length {p l : List Char} (h : l.length < p.length) :
    p.isPrefixOf l = false := by
  cases hb : p.isPrefixOf l
  · rfl
  · exfalso
    obtain ⟨t, rfl⟩ := eq_append_of_isPrefixOf hb
    rw [List.length_append] at h
    omega

theorem meetCode_getD_alpha {l : List Char} (h : isMeetCode l = true) {i : Nat}
    (hi : i ∈ ([0, 1, 2, 4, 5, 6, 7, 9, 10, 11] : List Nat)) :
    (l.getD i 'x').isAlpha = true :=
  (isMeetCode_extract h).2.2.2 i hi

theorem stripCtl_of_meetCode {l : List Char} (h : isMeetCode l = true) :
    stripCtl l = l :=
  stripCtl_eq_self (fun c hc => (meetCodeChar_facts (isMeetCode_chars h c hc)).2.1)

theorem jsTrim_of_meetCode {l : List Char} (h : isMeetCode l = true) :
    jsTrim l = l :=
  jsTrim_eq_self (fun c hc => (meetCodeChar_facts (isMeetCode_chars h c hc)).1)

theorem alpha_ne_colon {c : Char} (h : c.isAlpha = true) : ¬ lowerChar c = ':' := by
  intro hx
  have h2 := lowerChar_isAlpha c
  rw [hx, h] at h2
  exact absurd h2.symm (by decide)

theorem schemeSplit_none_of_meetCode {l : List Char} (h : isMeetCode l = true) :
    schemeSplit l = none := by
  have hlen := (isMeetCode_extract h).1
  unfold schemeSplit
  rw [if_neg, if_neg]
  · intro heq
    have h4 := congrArg (fun x : List Char => x.getD 4 'x') heq
    simp only at h4
    rw [getD_map_of_lt (by rw [List.length_take]; omega),
      getD_take_of_lt (by omega)] at h4
    exact alpha_ne_colon (meetCode_getD_alpha h (by decide)) (h4.trans (by decide))
  · intro heq
    have h5 := congrArg (fun x : List Char => x.getD 5 'x') heq
    simp only at h5
    rw [getD_map_of_lt (by rw [List.length_take]; omega),
      getD_take_of_lt (by omega)] at h5
    exact alpha_ne_colon (meetCode_getD_alpha h (by decide)) (h5.trans (by decide))

theorem URL.parse_none_of_meetCode {l : List Char} (h : isMeetCode l = true) :
    URL.parse l = none := by
  unfold URL.parse
  rw [stripCtl_of_meetCode h, schemeSplit_none_of_meetCode h]

theorem meetRaw_of_meetCode {s : List Char} (h : isMeetCode (jsTrim s) = true) :
    meetRaw s = jsTrim s := by
  have hlen := (isMeetCode_extract h).1
  have hh1 : (r"http://").data.isPrefixOf (jsTrim s) = false := by
    refine not_isPrefixOf_of_getD 4 (by decide) ?_
    intro hx
    have := meetCode_getD_alpha h (show (4 : Nat) ∈ _ by decide)
    rw [hx] at this
    exact absurd this (by decide)
  have hh2 : (r"https://").data.isPrefixOf (jsTrim s) = false := by
    refine not_isPrefixOf_of_getD 5 (by decide) ?_
    intro hx
    have := meetCode_getD_alpha h (show (5 : Nat) ∈ _ by decide)
    rw [hx] at this
    exact absurd this (by decide)
  have hh3 : (r"meet.google.com/").data.isPrefixOf (jsTrim s) = false :=
    not_isPrefixOf_of_length (by rw [hlen]; decide)
  have hh4 : (r"g.co/meet/").data.isPrefixOf (jsTrim s) = false := by
    refine not_isPrefixOf_of_getD 1 (by decide) ?_
    intro hx
    have := meetCode_getD_alpha h (show (1 : Nat) ∈ _ by decide)
    rw [hx] at this
    exact absurd this (by decide)
  simp only [meetRaw, hh1, hh2, hh3, hh4]
  rfl

/-! Canonical rebuilt URLs: serialization shapes and re-parse lemmas. -/

theorem toString_meet (path : List Char) :
    URL.toString ⟨Scheme.https, (r"meet.google.com").data, [], path, [], []⟩ =
      (r"https://meet.google.com").data ++ path := by
  show ((((Scheme.https.str ++ (':' :: '/' :: '/' :: []) ++ (r"meet.google.com").data ++
    ([] : List Char)) ++ path) ++ []) ++ []) = _
  rw [List.append_nil, List.append_nil, List.append_nil]
  exact congrArg (· ++ path) (by decide)

theorem toString_chat (path : List Char) :
    URL.toString ⟨Scheme.https, (r"chat.whatsapp.com").data, [], path, [], []⟩ =
      (r"https://chat.whatsapp.com").data ++ path := by
  show ((((Scheme.https.str ++ (':' :: '/' :: '/' :: []) ++ (r"chat.whatsapp.com").data ++
    ([] : List Char)) ++ path) ++ []) ++ []) = _
  rw [List.append_nil, List.append_nil, List.append_nil]
  exact congrArg (· ++ path) (by decide)

theorem wf_mk_simple {host path : List Char}
    (hh : host = (r"meet.google.com").data ∨ host = (r"chat.whatsapp.com").data)
    (hp : pathWf path = true) :
    URL.wf ⟨Scheme.https, host, [], path, [], []⟩ = true := by
  rcases hh with rfl | rfl <;>
  · simp only [URL.wf, Bool.and_eq_true]
    refine ⟨⟨⟨⟨⟨⟨⟨⟨⟨?_, ?_⟩, ?_⟩, ?_⟩, ?_⟩, ?_⟩, ?_⟩, hp⟩, rfl⟩, rfl⟩ <;> rfl

theorem URL.parse_meet {path : List Char} (hp : pathWf path = true) :
    URL.parse ((r"https://meet.google.com").data ++ path) =
      some ⟨Scheme.https, (r"meet.google.com").data, [], path, [], []⟩ := by
  rw [← toString_meet]
  exact URL.parse_toString (wf_mk_simple (Or.inl rfl) hp)

theorem URL.parse_chat {path : List Char} (hp : pathWf path = true) :
    URL.parse ((r"https://chat.whatsapp.com").data ++ path) =
      some ⟨Scheme.https, (r"chat.whatsapp.com").data, [], path, [], []⟩ := by
  rw [← toString_chat]
  exact URL.parse_toString (wf_mk_simple (Or.inr rfl) hp)

theorem jsTrim_meet_url {path : List Char} (hp : pathWf path = true) :
    jsTrim ((r"https://meet.google.com").data ++ path) =
      (r"https://meet.google.com").data ++ path := by
  rw [← toString_meet]
  exact wf_toString_trim (wf_mk_simple (Or.inl rfl) hp)

theorem jsTrim_chat_url {path : List Char} (hp : pathWf path = true) :
    jsTrim ((r"https://chat.whatsapp.com").data ++ path) =
      (r"https://chat.whatsapp.com").data ++ path := by
  rw [← toString_chat]
  exact wf_toString_trim (wf_mk_simple (Or.inr rfl) hp)

theorem startsHttps_meet (path : List Char) :
    (r"https://").data.isPrefixOf ((r"https://meet.google.com").data ++ path) = true := by
  rw [show (r"https://meet.google.com").data =
    (r"https://").data ++ (r"meet.google.com").data from by decide, List.append_assoc]
  exact isPrefixOf_append_self _ _

theorem startsHttps_chat (path : List Char) :
    (r"https://").data.isPrefixOf ((r"https://chat.whatsapp.com").data ++ path) = true := by
  rw [show (r"https://chat.whatsapp.com").data =
    (r"https://").data ++ (r"chat.whatsapp.com").data from by decide, List.append_assoc]
  exact isPrefixOf_append_self _ _

theorem meetRaw_of_scheme {s : List Char} (ht : jsTrim s = s)
    (hp : (r"http://").data.isPrefixOf s = true ∨ (r"https://").data.isPrefixOf s = true) :
    meetRaw s = s := by
  simp only [meetRaw, ht]
  rcases hp with hp | hp <;> rw [hp] <;> simp

theorem waRaw_of_scheme {s : List Char} (ht : jsTrim s = s)
    (hp : (r"http://").data.isPrefixOf s = true ∨ (r"https://").data.isPrefixOf s = true) :
    waRaw s = s := by
  simp only [waRaw, ht]
  rcases hp with hp | hp <;> rw [hp] <;> simp

theorem toString_scheme_starts (u : URL) :
    (r"http://").data.isPrefixOf u.toString = true ∨
      (r"https://").data.isPrefixOf u.toString = true := by
  rw [URL.toString_shape]
  rcases hsc : u.scheme
  · left
    rw [show Scheme.http.str ++ (':' :: '/' :: '/' :: []) =
      (r"http://").data from by decide]
    exact isPrefixOf_append_self _ _
  · right
    rw [show Scheme.https.str ++ (':' :: '/' :: '/' :: []) =
      (r"https://").data from by decide]
    exact isPrefixOf_append_self _ _

/-! pathWf for the rebuilt canonical paths. -/

theorem segOk_of_ne {s : List Char} (h1 : ¬ s = ['.']) (h2 : ¬ s = ['.', '.']) :
    segOk s = true := (segOk_iff s).mpr ⟨h1, h2⟩

theorem pathWf_of_code {lc : List Char} (h : isMeetCode lc = true) :
    pathWf ('/' :: lc) = true := by
  apply pathWf_mk
  · intro c hc
    exact (meetCodeChar_facts (isMeetCode_chars h c hc)).2.2.2.2.1
  · intro s hs
    rw [splitOnChar_no_sep (fun a ha =>
      (meetCodeChar_facts (isMeetCode_chars h a ha)).2.2.2.1)] at hs
    rcases List.mem_singleton.mp hs with rfl
    apply segOk_of_ne <;> intro hx <;>
      · have := (isMeetCode_extract h).1
        rw [hx] at this
        simp at this

theorem pathWf_of_lookup {tok : List Char} (hne : tok ≠ [])
    (hns : ∀ c ∈ tok, ¬ c = '/') (hch : ∀ c ∈ tok, pathCharOk c = true)
    (hseg : segOk tok = true) : pathWf ((r"/lookup/").data ++ tok) = true := by
  show pathWf ('/' :: ((r"lookup/").data ++ tok)) = true
  apply pathWf_mk
  · intro c hc
    rcases List.mem_append.mp hc with h1 | h1
    · revert h1
      have : ∀ x ∈ (r"lookup/").data, pathCharOk x = true := by decide
      exact this c
    · exact hch c h1
  · intro s hs
    rw [show (r"lookup/").data ++ tok = (r"lookup").data ++ '/' :: tok from by
        rw [show (r"lookup/").data = (r"lookup").data ++ ['/'] from by decide,
          List.append_assoc, List.singleton_append],
      splitOnChar_append_sep _ _ (by decide), splitOnChar_no_sep hns] at hs
    rcases List.mem_cons.mp hs with rfl | hs2
    · decide
    · rcases List.mem_singleton.mp hs2 with rfl
      exact hseg

theorem pathWf_strip {p : List Char} (hp : pathWf p = true)
    (hne : stripTrailingSlashes p ≠ []) : pathWf (stripTrailingSlashes p) = true := by
  obtain ⟨body, rfl, hchars, hsegs⟩ := pathWf_extract hp
  obtain ⟨k, hk⟩ := stripTrailingSlashes_spec ('/' :: body)
  obtain ⟨b2, hb2⟩ : ∃ b2, stripTrailingSlashes ('/' :: body) = '/' :: b2 := by
    have hpre := stripTrailingSlashes_prefix ('/' :: body)
    cases hsp : stripTrailingSlashes ('/' :: body) with
    | nil => exact absurd hsp hne
    | cons c t =>
      rw [hsp] at hpre
      obtain ⟨r, hr⟩ := hpre
      rw [List.cons_append] at hr
      have hc : c = '/' := (List.cons.injEq _ _ _ _ ▸ hr).1
      exact ⟨t, by rw [hc]⟩
  rw [hb2]
  rw [hb2, List.cons_append] at hk
  have hbody : body = b2 ++ List.replicate k '/' := (List.cons.injEq _ _ _ _ ▸ hk).2
  apply pathWf_mk
  · intro c hc
    exact hchars c (hbody ▸ List.mem_append.mpr (Or.inl hc))
  · intro s hs
    apply hsegs
    rw [hbody, splitOnChar_append_replicate]
    exact List.mem_append.mpr (Or.inl hs)

theorem pathWf_of_invite {tok : List Char} (h : isInviteToken tok = true) :
    pathWf ('/' :: tok) = true := by
  simp only [isInviteToken, Bool.and_eq_true] at h
  obtain ⟨hlen, hch⟩ := h
  have hlen10 : 10 ≤ tok.length := of_decide_eq_true hlen
  have hchars := List.all_eq_true.mp hch
  have htoNat : ∀ c ∈ tok, (48 ≤ c.toNat ∧ c.toNat ≤ 57) ∨ (65 ≤ c.toNat ∧ c.toNat ≤ 90) ∨
      (97 ≤ c.toNat ∧ c.toNat ≤ 122) ∨ c.toNat = 95 ∨ c.toNat = 45 := by
    intro c hc
    have := hchars c hc
    simp only [inviteChar, Bool.or_eq_true, char_beq_iff, isAlphanum_iff_toNat] at this
    rcases this with (h1 | h1) | h1
    · rcases h1 with h1 | h1 | h1
      · exact Or.inl h1
      · exact Or.inr (Or.inl h1)
      · exact Or.inr (Or.inr (Or.inl h1))
    · refine Or.inr (Or.inr (Or.inr (Or.inl ?_)))
      rw [h1]
      decide
    · refine Or.inr (Or.inr (Or.inr (Or.inr ?_)))
      rw [h1]
      decide
  apply pathWf_mk
  · intro c hc
    have ht := htoNat c hc
    have henc : encodeP c = false := by
      cases hb : encodeP c
      · rfl
      · exfalso
        have := encodeP_true_toNat hb
        rcases ht with ⟨a, b⟩ | ⟨a, b⟩ | ⟨a, b⟩ | a | a <;> omega
    simp only [pathCharOk, Bool.and_eq_true, Bool.not_eq_true']
    refine ⟨⟨⟨?_, ?_⟩, ?_⟩, henc⟩
    · exact char_beq_lit_false 63 (by decide)
        (by rcases ht with ⟨a, b⟩ | ⟨a, b⟩ | ⟨a, b⟩ | a | a <;> omega)
    · exact char_beq_lit_false 35 (by decide)
        (by rcases ht with ⟨a, b⟩ | ⟨a, b⟩ | ⟨a, b⟩ | a | a <;> omega)
    · exact char_beq_lit_false 92 (by decide)
        (by rcases ht with ⟨a, b⟩ | ⟨a, b⟩ | ⟨a, b⟩ | a | a <;> omega)
  · intro s hs
    have hns : ∀ a ∈ tok, ¬ a = '/' := by
      intro a ha hx
      have := htoNat a ha
      rw [hx] at this
      revert this
      decide
    rw [splitOnChar_no_sep hns] at hs
    rcases List.mem_singleton.mp hs with rfl
    apply segOk_of_ne <;> intro hx <;> rw [hx] at hlen10 <;> simp at hlen10

/-! lookupMatch, slashCodeMatch, firstSeg lemmas. -/

theorem lookupMatch_some_inv {p tok : List Char} (h : lookupMatch p = some tok) :
    (p.take 8).map lowerChar = ['/', 'l', 'o', 'o', 'k', 'u', 'p', '/'] ∧
      tok = p.drop 8 ∧ tok ≠ [] ∧ ∀ c ∈ tok, ¬ c = '/' := by
  unfold lookupMatch at h
  split_ifs at h with hc
  rw [Option.some.injEq] at h
  rw [Bool.and_eq_true, Bool.and_eq_true] at hc
  obtain ⟨⟨h1, h2⟩, h3⟩ := hc
  subst h
  refine ⟨beq_iff_eq.mp h1, rfl, ?_, ?_⟩
  · rw [Bool.not_eq_true'] at h2
    exact beq_eq_false_iff_ne.mp h2
  · intro c hcm hx
    have := List.all_eq_true.mp h3 c hcm
    rw [hx] at this
    exact absurd this (by decide)

theorem lookupMatch_of_shape {tok : List Char} (hne : tok ≠ [])
    (hns : ∀ c ∈ tok, ¬ c = '/') :
    lookupMatch ((r"/lookup/").data ++ tok) = some tok := by
  unfold lookupMatch
  rw [take_append_of_length (by decide), drop_append_of_length (by decide)]
  have hcond : ((List.map lowerChar (r"/lookup/").data ==
      ['/', 'l', 'o', 'o', 'k', 'u', 'p', '/']) && (!(tok == [])) &&
      tok.all (fun c => !(c == '/'))) = true := by
    rw [Bool.and_eq_true, Bool.and_eq_true]
    refine ⟨⟨by decide, ?_⟩, ?_⟩
    · rw [Bool.not_eq_true', beq_eq_false_iff_ne]
      exact hne
    · exact List.all_eq_true.mpr (fun c hc => by
        rw [beq_eq_false_iff_ne.mpr (hns c hc)]
        rfl)
  rw [if_pos hcond]

theorem lookupMatch_none_of_code {lc : List Char} (h : isMeetCode lc = true) :
    lookupMatch ('/' :: lc) = none := by
  have hlen := (isMeetCode_extract h).1
  unfold lookupMatch
  rw [if_neg]
  intro hc
  rw [Bool.and_eq_true, Bool.and_eq_true] at hc
  have h1 := beq_iff_eq.mp hc.1.1
  have h4 := congrArg (fun x : List Char => x.getD 4 'x') h1
  simp only at h4
  rw [getD_map_of_lt (by rw [List.length_take, List.length_cons, hlen]; omega),
    getD_take_of_lt (by omega), List.getD_cons_succ] at h4
  rw [(isMeetCode_extract h).2.1] at h4
  exact absurd h4 (by decide)

theorem slashCodeMatch_of_code {lc : List Char} (h : isMeetCode lc = true) :
    slashCodeMatch ('/' :: lc) = some lc := by
  simp [slashCodeMatch, h]

theorem slashCodeMatch_some_inv {p c : List Char} (h : slashCodeMatch p = some c) :
    p = '/' :: c ∧ isMeetCode c = true := by
  unfold slashCodeMatch at h
  split at h
  · split_ifs at h with hmc
    rw [Option.some.injEq] at h
    subst h
    exact ⟨rfl, hmc⟩
  · exact absurd h (by simp)

theorem firstSeg_slash_tok {tok : List Char} (hne : tok ≠ [])
    (hns : ∀ c ∈ tok, ¬ c = '/') : firstSeg ('/' :: tok) = some tok := by
  unfold firstSeg
  rw [splitOnChar_cons_sep, splitOnChar_no_sep hns, List.filter_cons, List.filter_cons]
  rw [if_neg (by simp), if_pos (by
    rw [Bool.not_eq_true', beq_eq_false_iff_ne]
    exact hne)]
  rfl

/-! Re-parsing the canonical outputs. -/

theorem parseGoogleMeet_of_url {s : List Char} {u : URL}
    (htrim : jsTrim s = s) (hne : s ≠ []) (hmc : isMeetCode s = false)
    (hraw : meetRaw s = s) (hu : URL.parse s = some u) :
    parseGoogleMeet s = meetFromUrl u := by
  simp only [parseGoogleMeet]
  rw [htrim, if_neg hne, hmc, if_neg Bool.false_ne_true, hraw, hu]

theorem parseWhatsAppGroupLink_of_url {s : List Char} {u : URL}
    (htrim : jsTrim s = s) (hne : s ≠ []) (hraw : waRaw s = s)
    (hu : URL.parse s = some u) : parseWhatsAppGroupLink s = waFromUrl u := by
  simp only [parseWhatsAppGroupLink]
  rw [htrim, if_neg hne, hraw, hu]

theorem meetFromUrl_meet_host (p : List Char) :
    meetFromUrl ⟨Scheme.https, (r"meet.google.com").data, [], p, [], []⟩ =
      (match lookupMatch (stripTrailingSlashes p) with
       | some token =>
         some (.lookup token ((r"https://meet.google.com/lookup/").data ++ token))
       | none =>
         match slashCodeMatch (stripTrailingSlashes p) with
         | some c =>
           some (.code (c.map lowerChar)
             ((r"https://meet.google.com/").data ++ c.map lowerChar))
         | none =>
           if stripTrailingSlashes p ≠ [] ∧ stripTrailingSlashes p ≠ ['/'] then
             some (.url (stripTrailingSlashes p)
               ((r"https://meet.google.com").data ++ stripTrailingSlashes p))
           else none) := by
  unfold meetFromUrl
  rw [if_neg (by
      rintro ⟨h1, _⟩
      exact absurd (show (r"meet.google.com").data = (r"g.co").data from h1) (by decide)),
    if_neg (by intro hx; exact hx rfl)]

theorem codeUrl_split (lc : List Char) :
    (r"https://meet.google.com/").data ++ lc =
      (r"https://meet.google.com").data ++ ('/' :: lc) := by
  rw [show (r"https://meet.google.com/").data =
    (r"https://meet.google.com").data ++ ['/'] from by decide, List.append_assoc,
    List.singleton_append]

theorem meetCode_ne_nil {lc : List Char} (h : isMeetCode lc = true) : lc ≠ [] := by
  intro hx
  have := (isMeetCode_extract h).1
  rw [hx] at this
  simp at this

theorem meetCode_no_slash {lc : List Char} (h : isMeetCode lc = true) :
    ∀ c ∈ lc, ¬ c = '/' :=
  fun c hc => (meetCodeChar_facts (isMeetCode_chars h c hc)).2.2.2.1

theorem stripTrailingSlashes_code {lc : List Char} (h : isMeetCode lc = true) :
    stripTrailingSlashes ('/' :: lc) = '/' :: lc := by
  rw [show ('/' :: lc : List Char) = ['/'] ++ lc from rfl]
  exact stripTrailingSlashes_append_no_slash (meetCode_ne_nil h) (meetCode_no_slash h)

theorem parseGoogleMeet_code_url {lc : List Char} (h : isMeetCode lc = true)
    (hfix : lc.map lowerChar = lc) :
    parseGoogleMeet ((r"https://meet.google.com/").data ++ lc) =
      some (.code lc ((r"https://meet.google.com/").data ++ lc)) := by
  rw [codeUrl_split]
  have hpw : pathWf ('/' :: lc) = true := pathWf_of_code h
  have htrim := jsTrim_meet_url hpw
  have hlc13 : ('/' :: lc).length = 13 := by
    rw [List.length_cons, (isMeetCode_extract h).1]
  have hlen : ((r"https://meet.google.com").data ++ ('/' :: lc)).length = 36 := by
    rw [List.length_append, hlc13]
    decide
  have hne : (r"https://meet.google.com").data ++ ('/' :: lc) ≠ [] := by
    intro hx
    rw [hx] at hlen
    simp at hlen
  have hmc : isMeetCode ((r"https://meet.google.com").data ++ ('/' :: lc)) = false :=
    isMeetCode_false_of_length (by rw [hlen]; omega)
  have hraw := meetRaw_of_scheme htrim (Or.inr (startsHttps_meet _))
  rw [parseGoogleMeet_of_url htrim hne hmc hraw (URL.parse_meet hpw),
    meetFromUrl_meet_host, stripTrailingSlashes_code h, lookupMatch_none_of_code h,
    slashCodeMatch_of_code h]
  show some (ParsedMeet.code (lc.map lowerChar)
    ((r"https://meet.google.com/").data ++ lc.map lowerChar)) = _
  rw [hfix, codeUrl_split]

theorem lookupUrl_split (tok : List Char) :
    (r"https://meet.google.com/lookup/").data ++ tok =
      (r"https://meet.google.com").data ++ ((r"/lookup/").data ++ tok) := by
  rw [show (r"https://meet.google.com/lookup/").data =
    (r"https://meet.google.com").data ++ (r"/lookup/").data from by decide,
    List.append_assoc]

theorem parseGoogleMeet_lookup_url {tok : List Char} (hne : tok ≠ [])
    (hns : ∀ c ∈ tok, ¬ c = '/') (hch : ∀ c ∈ tok, pathCharOk c = true)
    (hseg : segOk tok = true) :
    parseGoogleMeet ((r"https://meet.google.com/lookup/").data ++ tok) =
      some (.lookup tok ((r"https://meet.google.com/lookup/").data ++ tok)) := by
  rw [lookupUrl_split]
  have hpw := pathWf_of_lookup hne hns hch hseg
  have htrim := jsTrim_meet_url hpw
  have hlen : ((r"https://meet.google.com").data ++ ((r"/lookup/").data ++ tok)).length =
      31 + tok.length := by
    rw [List.length_append, List.length_append,
      show (r"https://meet.google.com").data.length = 23 from by decide,
      show (r"/lookup/").data.length = 8 from by decide]
    omega
  have hnen : (r"https://meet.google.com").data ++ ((r"/lookup/").data ++ tok) ≠ [] := by
    intro hx
    rw [hx] at hlen
    simp only [List.length_nil] at hlen
    omega
  have hmc : isMeetCode ((r"https://meet.google.com").data ++
      ((r"/lookup/").data ++ tok)) = false :=
    isMeetCode_false_of_length (by rw [hlen]; omega)
  have hraw := meetRaw_of_scheme htrim (Or.inr (startsHttps_meet _))
  have hstrip : stripTrailingSlashes ((r"/lookup/").data ++ tok) =
      (r"/lookup/").data ++ tok :=
    stripTrailingSlashes_append_no_slash hne hns
  rw [parseGoogleMeet_of_url htrim hnen hmc hraw (URL.parse_meet hpw),
    meetFromUrl_meet_host, hstrip, lookupMatch_of_shape hne hns]
  show some (ParsedMeet.lookup tok ((r"https://meet.google.com/lookup/").data ++ tok)) = _
  rw [lookupUrl_split]

theorem lowerChar_eq_keep {c d : Char} (hd : ¬ (97 ≤ d.toNat ∧ d.toNat ≤ 122))
    (h : lowerChar c = d) : c = d := by
  apply char_toNat_inj
  have ht := congrArg Char.toNat h
  rw [lowerChar_toNat] at ht
  split_ifs at ht with hc
  · omega
  · exact ht

theorem inviteToken_ne_nil {tok : List Char} (h : isInviteToken tok = true) :
    tok ≠ [] := by
  simp only [isInviteToken, Bool.and_eq_true] at h
  have hlen := of_decide_eq_true h.1
  intro hx
  rw [hx] at hlen
  simp only [List.length_nil] at hlen
  omega

theorem inviteToken_no_slash {tok : List Char} (h : isInviteToken tok = true) :
    ∀ c ∈ tok, ¬ c = '/' := by
  simp only [isInviteToken, Bool.and_eq_true] at h
  intro c hc hx
  have := List.all_eq_true.mp h.2 c hc
  rw [hx] at this
  exact absurd this (by decide)

theorem parseGoogleMeet_path_url {path : List Char} (hp : pathWf path = true)
    (hstr : stripTrailingSlashes path = path) (hnr : path ≠ ['/'])
    (hlm : lookupMatch path = none) (hsc : slashCodeMatch path = none) :
    parseGoogleMeet ((r"https://meet.google.com").data ++ path) =
      some (.url path ((r"https://meet.google.com").data ++ path)) := by
  have htrim := jsTrim_meet_url hp
  obtain ⟨body, hbody, -, -⟩ := pathWf_extract hp
  have hne0 : path ≠ [] := by rw [hbody]; exact List.cons_ne_nil _ _
  have hlen : ((r"https://meet.google.com").data ++ path).length = 23 + path.length := by
    rw [List.length_append, show (r"https://meet.google.com").data.length = 23 from by decide]
  have hnen : (r"https://meet.google.com").data ++ path ≠ [] := by
    intro hx
    rw [hx] at hlen
    simp only [List.length_nil] at hlen
    omega
  have hmc : isMeetCode ((r"https://meet.google.com").data ++ path) = false :=
    isMeetCode_false_of_length (by rw [hlen]; omega)
  have hraw := meetRaw_of_scheme htrim (Or.inr (startsHttps_meet _))
  rw [parseGoogleMeet_of_url htrim hnen hmc hraw (URL.parse_meet hp),
    meetFromUrl_meet_host, hstr, hlm, hsc, if_pos (⟨hne0, hnr⟩ : path ≠ [] ∧ path ≠ ['/'])]

theorem parseGoogleMeet_gco_url {u : URL} (hwf : u.wf = true)
    (hhost : u.host = (r"g.co").data)
    (hpre : (r"/meet/").data.isPrefixOf (u.pathname.map lowerChar) = true) :
    parseGoogleMeet u.toString = meetFromUrl u := by
  have htrim := wf_toString_trim hwf
  have hne : u.toString ≠ [] := by
    intro hx
    rcases toString_scheme_starts u with hp | hp <;> rw [hx] at hp <;>
      exact absurd hp (by decide)
  have hplen : 6 ≤ u.pathname.length := by
    have h1 := List.IsPrefix.length_le (List.isPrefixOf_iff_prefix.mp hpre)
    rw [List.length_map] at h1
    exact le_trans (show 6 ≤ (r"/meet/").data.length from by decide) h1
  have hh4 : u.host.length = 4 := by rw [hhost]; decide
  have hs4 : 4 ≤ u.scheme.str.length := by
    rcases hs : u.scheme <;> decide
  have hlen : 13 ≤ u.toString.length := by
    simp only [URL.toString_shape, List.length_append, List.length_cons, List.length_nil]
    omega
  have hmc : isMeetCode u.toString = false :=
    isMeetCode_false_of_length (by omega)
  have hraw := meetRaw_of_scheme htrim (toString_scheme_starts u)
  exact parseGoogleMeet_of_url htrim hne hmc hraw (URL.parse_toString hwf)

theorem meetFromUrl_inv {u : URL} {res : ParsedMeet} (h : meetFromUrl u = some res) :
    (u.host = (r"g.co").data ∧
      (r"/meet/").data.isPrefixOf (u.pathname.map lowerChar) = true ∧
      isMeetCode (stripTrailingSlashes (u.pathname.drop 6)) = true ∧
      res = .code ((stripTrailingSlashes (u.pathname.drop 6)).map lowerChar)
        ((r"https://meet.google.com/").data ++
          (stripTrailingSlashes (u.pathname.drop 6)).map lowerChar)) ∨
    (u.host = (r"g.co").data ∧
      (r"/meet/").data.isPrefixOf (u.pathname.map lowerChar) = true ∧
      isMeetCode (stripTrailingSlashes (u.pathname.drop 6)) = false ∧
      stripTrailingSlashes (u.pathname.drop 6) ≠ [] ∧
      res = .url ((r"/meet/").data ++ stripTrailingSlashes (u.pathname.drop 6))
        u.toString) ∨
    (u.host = (r"meet.google.com").data ∧
      ∃ tok, lookupMatch (stripTrailingSlashes u.pathname) = some tok ∧
        res = .lookup tok ((r"https://meet.google.com/lookup/").data ++ tok)) ∨
    (u.host = (r"meet.google.com").data ∧
      lookupMatch (stripTrailingSlashes u.pathname) = none ∧
      ∃ c, slashCodeMatch (stripTrailingSlashes u.pathname) = some c ∧
        res = .code (c.map lowerChar)
          ((r"https://meet.google.com/").data ++ c.map lowerChar)) ∨
    (u.host = (r"meet.google.com").data ∧
      lookupMatch (stripTrailingSlashes u.pathname) = none ∧
      slashCodeMatch (stripTrailingSlashes u.pathname) = none ∧
      stripTrailingSlashes u.pathname ≠ [] ∧ stripTrailingSlashes u.pathname ≠ ['/'] ∧
      res = .url (stripTrailingSlashes u.pathname)
        ((r"https://meet.google.com").data ++ stripTrailingSlashes u.pathname)) := by
  unfold meetFromUrl at h
  by_cases hg : u.host = (r"g.co").data ∧
      (r"/meet/").data.isPrefixOf (u.pathname.map lowerChar) = true
  · rw [if_pos hg] at h
    by_cases hmc : isMeetCode (stripTrailingSlashes (u.pathname.drop 6)) = true
    · rw [if_pos hmc] at h
      rw [Option.some.injEq] at h
      exact Or.inl ⟨hg.1, hg.2, hmc, h.symm⟩
    · rw [if_neg hmc] at h
      have hmcf : isMeetCode (stripTrailingSlashes (u.pathname.drop 6)) = false := by
        cases hx : isMeetCode (stripTrailingSlashes (u.pathname.drop 6))
        · rfl
        · exact absurd hx hmc
      by_cases hemp : stripTrailingSlashes (u.pathname.drop 6) = []
      · rw [if_pos hemp] at h
        exact absurd h (by simp)
      · rw [if_neg hemp, Option.some.injEq] at h
        exact Or.inr (Or.inl ⟨hg.1, hg.2, hmcf, hemp, h.symm⟩)
  · rw [if_neg hg] at h
    by_cases hh : u.host = (r"meet.google.com").data
    · rw [if_neg (not_not_intro hh)] at h
      rcases hlm : lookupMatch (stripTrailingSlashes u.pathname) with _ | tok
      · rw [hlm] at h
        rcases hsc : slashCodeMatch (stripTrailingSlashes u.pathname) with _ | c
        · rw [hsc] at h
          have h2 : (if stripTrailingSlashes u.pathname ≠ [] ∧
              stripTrailingSlashes u.pathname ≠ ['/'] then
                some (ParsedMeet.url (stripTrailingSlashes u.pathname)
                  ((r"https://meet.google.com").data ++ stripTrailingSlashes u.pathname))
              else none) = some res := h
          split_ifs at h2 with hcond
          · rw [Option.some.injEq] at h2
            exact Or.inr (Or.inr (Or.inr (Or.inr
              ⟨hh, rfl, rfl, hcond.1, hcond.2, h2.symm⟩)))
        · rw [hsc] at h
          have h2 : some (ParsedMeet.code (c.map lowerChar)
              ((r"https://meet.google.com/").data ++ c.map lowerChar)) = some res := h
          rw [Option.some.injEq] at h2
          exact Or.inr (Or.inr (Or.inr (Or.inl ⟨hh, rfl, c, rfl, h2.symm⟩)))
      · rw [hlm] at h
        have h2 : some (ParsedMeet.lookup tok
            ((r"https://meet.google.com/lookup/").data ++ tok)) = some res := h
        rw [Option.some.injEq] at h2
        exact Or.inr (Or.inr (Or.inl ⟨hh, tok, rfl, h2.symm⟩))
    · rw [if_pos hh] at h
      exact absurd h (by simp)

theorem parseGoogleMeet_inv {s : List Char} {res : ParsedMeet}
    (h : parseGoogleMeet s = some res) :
    (isMeetCode (jsTrim s) = true ∧
      res = .code ((jsTrim s).map lowerChar)
        ((r"https://meet.google.com/").data ++ (jsTrim s).map lowerChar)) ∨
    (∃ u, URL.parse (meetRaw s) = some u ∧ meetFromUrl u = some res) := by
  simp only [parseGoogleMeet] at h
  by_cases h0 : jsTrim s = []
  · rw [if_pos h0] at h
    exact absurd h (by simp)
  · rw [if_neg h0] at h
    by_cases h1 : isMeetCode (jsTrim s) = true
    · rw [if_pos h1, Option.some.injEq] at h
      exact Or.inl ⟨h1, h.symm⟩
    · rw [if_neg h1] at h
      rcases hu : URL.parse (meetRaw s) with _ | u
      · rw [hu] at h
        exact absurd h (by simp)
      · rw [hu] at h
        exact Or.inr ⟨u, rfl, h⟩

theorem lookup_tok_facts {u : URL} {tok : List Char} (hwf : u.wf = true)
    (hlm : lookupMatch (stripTrailingSlashes u.pathname) = some tok) :
    tok ≠ [] ∧ (∀ c ∈ tok, ¬ c = '/') ∧ (∀ c ∈ tok, pathCharOk c = true) ∧
      segOk tok = true := by
  obtain ⟨hmap, htokd, hne, hns⟩ := lookupMatch_some_inv hlm
  have hpw : pathWf u.pathname = true :=
    (URL.wf_extract hwf).2.2.2.2.2.2.2.1
  have hpne : stripTrailingSlashes u.pathname ≠ [] := by
    intro hx
    apply hne
    rw [htokd, hx]
    simp
  have hpwS := pathWf_strip hpw hpne
  obtain ⟨bodyP, hbodyP, hchars, hsegs⟩ := pathWf_extract hpwS
  have hch : ∀ c ∈ tok, pathCharOk c = true := by
    intro c hc
    have hcp : c ∈ stripTrailingSlashes u.pathname :=
      List.drop_subset 8 _ (htokd ▸ hc)
    rw [hbodyP] at hcp
    rcases List.mem_cons.mp hcp with rfl | hcb
    · decide
    · exact hchars c hcb
  have hlen8 : (stripTrailingSlashes u.pathname).take 8 ≠ [] ∧
      ((stripTrailingSlashes u.pathname).take 8).length = 8 := by
    have hl := congrArg List.length hmap
    simp only [List.length_map, List.length_cons, List.length_nil] at hl
    constructor
    · intro hx
      rw [hx] at hl
      simp only [List.length_nil] at hl
      omega
    · rw [hl]
  obtain ⟨a0, t1, h0, ha0, hmap⟩ := List.map_eq_cons_iff.mp hmap
  obtain ⟨a1, t2, h1, ha1, hmap⟩ := List.map_eq_cons_iff.mp hmap
  obtain ⟨a2, t3, h2, ha2, hmap⟩ := List.map_eq_cons_iff.mp hmap
  obtain ⟨a3, t4, h3, ha3, hmap⟩ := List.map_eq_cons_iff.mp hmap
  obtain ⟨a4, t5, h4, ha4, hmap⟩ := List.map_eq_cons_iff.mp hmap
  obtain ⟨a5, t6, h5, ha5, hmap⟩ := List.map_eq_cons_iff.mp hmap
  obtain ⟨a6, t7, h6, ha6, hmap⟩ := List.map_eq_cons_iff.mp hmap
  obtain ⟨a7, t8, h7, ha7, hmap⟩ := List.map_eq_cons_iff.mp hmap
  have ht8 : t8 = [] := List.map_eq_nil_iff.mp hmap
  have ha0e : a0 = '/' := lowerChar_eq_keep (by decide) ha0
  have ha7e : a7 = '/' := lowerChar_eq_keep (by decide) ha7
  have hpath : stripTrailingSlashes u.pathname =
      '/' :: ([a1, a2, a3, a4, a5, a6] ++ '/' :: tok) := by
    have := (List.take_append_drop 8 (stripTrailingSlashes u.pathname)).symm
    rw [h0, h1, h2, h3, h4, h5, h6, h7, ht8, ha0e, ha7e, ← htokd] at this
    exact this
  have hmidns : ∀ a ∈ ([a1, a2, a3, a4, a5, a6] : List Char), ¬ a = '/' := by
    intro a ha hx
    subst hx
    simp only [List.mem_cons, List.not_mem_nil, or_false] at ha
    rcases ha with rfl | rfl | rfl | rfl | rfl | rfl
    · exact absurd ha1 (by decide)
    · exact absurd ha2 (by decide)
    · exact absurd ha3 (by decide)
    · exact absurd ha4 (by decide)
    · exact absurd ha5 (by decide)
    · exact absurd ha6 (by decide)
  have hbody2 : bodyP = [a1, a2, a3, a4, a5, a6] ++ '/' :: tok := by
    rw [hpath] at hbodyP
    exact (List.cons.injEq _ _ _ _ ▸ hbodyP.symm).2
  have hseg : segOk tok = true := by
    apply hsegs
    rw [hbody2, splitOnChar_append_sep _ _ hmidns, splitOnChar_no_sep hns]
    exact List.mem_cons.mpr (Or.inr (List.mem_singleton.mpr rfl))
  exact ⟨hne, hns, hch, hseg⟩

theorem parseGoogleMeet_idem {s : List Char} {res : ParsedMeet}
    (h : parseGoogleMeet s = some res) :
    parseGoogleMeet res.getUrl = some res := by
  rcases parseGoogleMeet_inv h with ⟨hmc, rfl⟩ | ⟨u, hu, hfu⟩
  · exact parseGoogleMeet_code_url (isMeetCode_map_lowerChar hmc) (map_lowerChar_idem _)
  · have hwf := URL.parse_wf hu
    rcases meetFromUrl_inv hfu with ⟨hhost, hpre, hmcr, rfl⟩ |
      ⟨hhost, hpre, hmcr, hrne, rfl⟩ | ⟨hhost, tok, hlm, rfl⟩ |
      ⟨hhost, hlm, c, hsc, rfl⟩ | ⟨hhost, hlm, hsc, hne, hnr, rfl⟩
    · exact parseGoogleMeet_code_url (isMeetCode_map_lowerChar hmcr) (map_lowerChar_idem _)
    · show parseGoogleMeet u.toString = _
      rw [parseGoogleMeet_gco_url hwf hhost hpre]
      exact hfu
    · obtain ⟨hne, hns, hch, hseg⟩ := lookup_tok_facts hwf hlm
      exact parseGoogleMeet_lookup_url hne hns hch hseg
    · exact parseGoogleMeet_code_url
        (isMeetCode_map_lowerChar (slashCodeMatch_some_inv hsc).2) (map_lowerChar_idem _)
    · have hpw : pathWf u.pathname = true := (URL.wf_extract hwf).2.2.2.2.2.2.2.1
      exact parseGoogleMeet_path_url (pathWf_strip hpw hne) (stripTrailingSlashes_idem _)
        hnr hlm hsc

theorem chatUrl_split (tok : List Char) :
    (r"https://chat.whatsapp.com/").data ++ tok =
      (r"https://chat.whatsapp.com").data ++ ('/' :: tok) := by
  rw [show (r"https://chat.whatsapp.com/").data =
    (r"https://chat.whatsapp.com").data ++ ['/'] from by decide, List.append_assoc,
    List.singleton_append]

theorem waFromUrl_inv {u : URL} {out : List Char} (h : waFromUrl u = some out) :
    u.host = (r"chat.whatsapp.com").data ∧
      ∃ tok, firstSeg u.pathname = some tok ∧ isInviteToken tok = true ∧
        out = (r"https://chat.whatsapp.com/").data ++ tok := by
  unfold waFromUrl at h
  by_cases hh : u.host = (r"chat.whatsapp.com").data
  · rw [if_neg (not_not_intro hh)] at h
    rcases hfs : firstSeg u.pathname with _ | tok
    · rw [hfs] at h
      exact absurd h (by simp)
    · rw [hfs] at h
      have h2 : (if isInviteToken tok = true then
          some ((r"https://chat.whatsapp.com/").data ++ tok) else none) = some out := h
      split_ifs at h2 with hinv
      rw [Option.some.injEq] at h2
      exact ⟨hh, tok, rfl, hinv, h2.symm⟩
  · rw [if_pos hh] at h
    exact absurd h (by simp)

theorem parseWhatsAppGroupLink_inv {s : List Char} {out : List Char}
    (h : parseWhatsAppGroupLink s = some out) :
    ∃ u, URL.parse (waRaw s) = some u ∧ waFromUrl u = some out := by
  simp only [parseWhatsAppGroupLink] at h
  by_cases h0 : jsTrim s = []
  · rw [if_pos h0] at h
    exact absurd h (by simp)
  · rw [if_neg h0] at h
    rcases hu : URL.parse (waRaw s) with _ | u
    · rw [hu] at h
      exact absurd h (by simp)
    · rw [hu] at h
      exact ⟨u, rfl, h⟩

theorem parseWhatsAppGroupLink_invite_url {tok : List Char}
    (hinv : isInviteToken tok = true) :
    parseWhatsAppGroupLink ((r"https://chat.whatsapp.com/").data ++ tok) =
      some ((r"https://chat.whatsapp.com/").data ++ tok) := by
  rw [chatUrl_split]
  have hnetok := inviteToken_ne_nil hinv
  have hns := inviteToken_no_slash hinv
  have hpw := pathWf_of_invite hinv
  have htrim := jsTrim_chat_url hpw
  have hlen : ((r"https://chat.whatsapp.com").data ++ ('/' :: tok)).length =
      26 + tok.length := by
    rw [List.length_append,
      show (r"https://chat.whatsapp.com").data.length = 25 from by decide,
      List.length_cons]
    omega
  have hne : (r"https://chat.whatsapp.com").data ++ ('/' :: tok) ≠ [] := by
    intro hx
    rw [hx] at hlen
    simp only [List.length_nil] at hlen
    omega
  have hraw := waRaw_of_scheme htrim (Or.inr (startsHttps_chat _))
  rw [parseWhatsAppGroupLink_of_url htrim hne hraw (URL.parse_chat hpw)]
  unfold waFromUrl
  rw [if_neg (not_not_intro rfl), firstSeg_slash_tok hnetok hns]
  show (if isInviteToken tok = true then
      some ((r"https://chat.whatsapp.com/").data ++ tok) else none) = _
  rw [if_pos hinv, chatUrl_split]

theorem parseWhatsAppGroupLink_idem {s out : List Char}
    (h : parseWhatsAppGroupLink s = some out) :
    parseWhatsAppGroupLink out = some out := by
  obtain ⟨u, hu, hfu⟩ := parseWhatsAppGroupLink_inv h
  obtain ⟨hh, tok, hfs, hinv, rfl⟩ := waFromUrl_inv hfu
  exact parseWhatsAppGroupLink_invite_url hinv

theorem wf_mk_gco {path : List Char} (hp : pathWf path = true) :
    URL.wf ⟨Scheme.https, (r"g.co").data, [], path, [], []⟩ = true := by
  simp only [URL.wf, Bool.and_eq_true]
  refine ⟨⟨⟨⟨⟨⟨⟨⟨⟨?_, ?_⟩, ?_⟩, ?_⟩, ?_⟩, ?_⟩, ?_⟩, hp⟩, rfl⟩, rfl⟩ <;> rfl

theorem toString_gco (path : List Char) :
    URL.toString ⟨Scheme.https, (r"g.co").data, [], path, [], []⟩ =
      (r"https://g.co").data ++ path := by
  show ((((Scheme.https.str ++ (':' :: '/' :: '/' :: []) ++ (r"g.co").data ++
    ([] : List Char)) ++ path) ++ []) ++ []) = _
  rw [List.append_nil, List.append_nil, List.append_nil]
  exact congrArg (· ++ path) (by decide)

theorem URL.parse_gco {path : List Char} (hp : pathWf path = true) :
    URL.parse ((r"https://g.co").data ++ path) =
      some ⟨Scheme.https, (r"g.co").data, [], path, [], []⟩ := by
  rw [← toString_gco]
  exact URL.parse_toString (wf_mk_gco hp)

theorem jsTrim_gco_url {path : List Char} (hp : pathWf path = true) :
    jsTrim ((r"https://g.co").data ++ path) = (r"https://g.co").data ++ path := by
  rw [← toString_gco]
  exact wf_toString_trim (wf_mk_gco hp)

theorem startsHttps_gco (path : List Char) :
    (r"https://").data.isPrefixOf ((r"https://g.co").data ++ path) = true := by
  rw [show (r"https://g.co").data =
    (r"https://").data ++ (r"g.co").data from by decide, List.append_assoc]
  exact isPrefixOf_append_self _ _

theorem meetCode_segOk {c : List Char} (h : isMeetCode c = true) : segOk c = true := by
  apply segOk_of_ne <;> intro hx <;>
    · have := (isMeetCode_extract h).1
      rw [hx] at this
      simp at this

theorem pathWf_lit_append {p1 tok : List Char}
    (hp1c : ∀ x ∈ p1, pathCharOk x = true) (hp1s : ∀ x ∈ p1, ¬ x = '/')
    (hp1seg : segOk p1 = true)
    (hne : tok ≠ []) (hns : ∀ c ∈ tok, ¬ c = '/')
    (hch : ∀ c ∈ tok, pathCharOk c = true) (hseg : segOk tok = true) :
    pathWf (('/' :: (p1 ++ ['/'])) ++ tok) = true := by
  have hbody : (p1 ++ ['/']) ++ tok = p1 ++ '/' :: tok := by
    rw [List.append_assoc, List.singleton_append]
  show pathWf ('/' :: ((p1 ++ ['/']) ++ tok)) = true
  rw [hbody]
  apply pathWf_mk
  · intro c hc
    rcases List.mem_append.mp hc with h1 | h1
    · exact hp1c c h1
    · rcases List.mem_cons.mp h1 with rfl | h2
      · decide
      · exact hch c h2
  · intro s hs
    rw [splitOnChar_append_sep _ _ hp1s, splitOnChar_no_sep hns] at hs
    rcases List.mem_cons.mp hs with rfl | hs2
    · exact hp1seg
    · rcases List.mem_singleton.mp hs2 with rfl
      exact hseg

theorem meetseg_pathWf {c : List Char} (hc : isMeetCode c = true) :
    pathWf ((r"/meet/").data ++ c) = true := by
  show pathWf (('/' :: ((r"meet").data ++ ['/'])) ++ c) = true
  exact pathWf_lit_append (by decide) (by decide) (by decide) (meetCode_ne_nil hc)
    (meetCode_no_slash hc)
    (fun x hx => (meetCodeChar_facts (isMeetCode_chars hc x hx)).2.2.2.2.1)
    (meetCode_segOk hc)

theorem meetseg_upper_pathWf {c : List Char} (hc : isMeetCode c = true) :
    pathWf ((r"/MEET/").data ++ c) = true := by
  show pathWf (('/' :: ((r"MEET").data ++ ['/'])) ++ c) = true
  exact pathWf_lit_append (by decide) (by decide) (by decide) (meetCode_ne_nil hc)
    (meetCode_no_slash hc)
    (fun x hx => (meetCodeChar_facts (isMeetCode_chars hc x hx)).2.2.2.2.1)
    (meetCode_segOk hc)

theorem meetFromUrl_gco_code {p : List Char}
    (hpre : (r"/meet/").data.isPrefixOf (p.map lowerChar) = true)
    (hmc : isMeetCode (stripTrailingSlashes (p.drop 6)) = true) :
    meetFromUrl ⟨Scheme.https, (r"g.co").data, [], p, [], []⟩ =
      some (.code ((stripTrailingSlashes (p.drop 6)).map lowerChar)
        ((r"https://meet.google.com/").data ++
          (stripTrailingSlashes (p.drop 6)).map lowerChar)) := by
  unfold meetFromUrl
  rw [if_pos ⟨rfl, hpre⟩, if_pos hmc]

theorem parseGoogleMeet_gco_code {p : List Char} (hpw : pathWf p = true)
    (hpre : (r"/meet/").data.isPrefixOf (p.map lowerChar) = true)
    (hmc : isMeetCode (stripTrailingSlashes (p.drop 6)) = true) :
    parseGoogleMeet ((r"https://g.co").data ++ p) =
      some (.code ((stripTrailingSlashes (p.drop 6)).map lowerChar)
        ((r"https://meet.google.com/").data ++
          (stripTrailingSlashes (p.drop 6)).map lowerChar)) := by
  have htrim := jsTrim_gco_url hpw
  obtain ⟨body, hbody, -, -⟩ := pathWf_extract hpw
  have hplen1 : 1 ≤ p.length := by
    rw [hbody, List.length_cons]
    omega
  have hlen : ((r"https://g.co").data ++ p).length = 12 + p.length := by
    rw [List.length_append, show (r"https://g.co").data.length = 12 from by decide]
  have hne : (r"https://g.co").data ++ p ≠ [] := by
    intro hx
    rw [hx] at hlen
    simp only [List.length_nil] at hlen
    omega
  have hmcf : isMeetCode ((r"https://g.co").data ++ p) = false :=
    isMeetCode_false_of_length (by rw [hlen]; omega)
  have hraw := meetRaw_of_scheme htrim (Or.inr (startsHttps_gco _))
  rw [parseGoogleMeet_of_url htrim hne hmcf hraw (URL.parse_gco hpw)]
  exact meetFromUrl_gco_code hpre hmc

theorem gcoMeetUrl_split (c : List Char) :
    (r"https://g.co/meet/").data ++ c =
      (r"https://g.co").data ++ ((r"/meet/").data ++ c) := by
  rw [show (r"https://g.co/meet/").data =
    (r"https://g.co").data ++ (r"/meet/").data from by decide, List.append_assoc]

theorem gcoMeetUrl_upper_split (c : List Char) :
    (r"https://g.co/MEET/").data ++ c =
      (r"https://g.co").data ++ ((r"/MEET/").data ++ c) := by
  rw [show (r"https://g.co/MEET/").data =
    (r"https://g.co").data ++ (r"/MEET/").data from by decide, List.append_assoc]

theorem meetseg_pre (c : List Char) :
    (r"/meet/").data.isPrefixOf (((r"/meet/").data ++ c).map lowerChar) = true := by
  rw [List.map_append, show ((r"/meet/").data).map lowerChar = (r"/meet/").data from by decide]
  exact isPrefixOf_append_self _ _

theorem meetseg_upper_pre (c : List Char) :
    (r"/meet/").data.isPrefixOf (((r"/MEET/").data ++ c).map lowerChar) = true := by
  rw [List.map_append, show ((r"/MEET/").data).map lowerChar = (r"/meet/").data from by decide]
  exact isPrefixOf_append_self _ _

theorem parseGoogleMeet_gco_meet_code {c : List Char} (hc : isMeetCode c = true) :
    parseGoogleMeet ((r"https://g.co/meet/").data ++ c) =
      some (.code (c.map lowerChar)
        ((r"https://meet.google.com/").data ++ c.map lowerChar)) := by
  rw [gcoMeetUrl_split]
  have hdrop : ((r"/meet/").data ++ c).drop 6 = c := drop_append_of_length (by decide)
  have hstrip := stripTrailingSlashes_eq_self (meetCode_no_slash hc)
  have h1 := parseGoogleMeet_gco_code (meetseg_pathWf hc) (meetseg_pre c)
    (by rw [hdrop, hstrip]; exact hc)
  rw [hdrop, hstrip] at h1
  exact h1

theorem parseGoogleMeet_gco_upper_code {c : List Char} (hc : isMeetCode c = true) :
    parseGoogleMeet ((r"https://g.co/MEET/").data ++ c) =
      some (.code (c.map lowerChar)
        ((r"https://meet.google.com/").data ++ c.map lowerChar)) := by
  rw [gcoMeetUrl_upper_split]
  have hdrop : ((r"/MEET/").data ++ c).drop 6 = c := drop_append_of_length (by decide)
  have hstrip := stripTrailingSlashes_eq_self (meetCode_no_slash hc)
  have h1 := parseGoogleMeet_gco_code (meetseg_upper_pathWf hc) (meetseg_upper_pre c)
    (by rw [hdrop, hstrip]; exact hc)
  rw [hdrop, hstrip] at h1
  exact h1

theorem parseGoogleMeet_gco_bare {c : List Char} (hc : isMeetCode c = true) :
    parseGoogleMeet ((r"g.co/meet/").data ++ c) =
      some (.code (c.map lowerChar)
        ((r"https://meet.google.com/").data ++ c.map lowerChar)) := by
  have htrim : jsTrim ((r"g.co/meet/").data ++ c) = (r"g.co/meet/").data ++ c :=
    jsTrim_eq_self (by
      intro x hx
      rcases List.mem_append.mp hx with h1 | h1
      · revert h1
        have hl : ∀ y ∈ (r"g.co/meet/").data, jsWs y = false := by decide
        exact hl x
      · exact (meetCodeChar_facts (isMeetCode_chars hc x h1)).1)
  have hlen : ((r"g.co/meet/").data ++ c).length = 22 := by
    rw [List.length_append, (isMeetCode_extract hc).1]
    decide
  have hne : (r"g.co/meet/").data ++ c ≠ [] := by
    intro hx
    rw [hx] at hlen
    simp at hlen
  have hmcf : isMeetCode ((r"g.co/meet/").data ++ c) = false :=
    isMeetCode_false_of_length (by rw [hlen]; omega)
  have hnp1 : (r"http://").data.isPrefixOf ((r"g.co/meet/").data ++ c) = false := by
    apply not_isPrefixOf_of_getD 0 (by decide)
    rw [getD_append_left (by decide)]
    decide
  have hnp2 : (r"https://").data.isPrefixOf ((r"g.co/meet/").data ++ c) = false := by
    apply not_isPrefixOf_of_getD 0 (by decide)
    rw [getD_append_left (by decide)]
    decide
  have hgp : (r"g.co/meet/").data.isPrefixOf ((r"g.co/meet/").data ++ c) = true :=
    isPrefixOf_append_self _ _
  have hraw : meetRaw ((r"g.co/meet/").data ++ c) =
      (r"https://g.co").data ++ ((r"/meet/").data ++ c) := by
    simp only [meetRaw, htrim, hnp1, hnp2, hgp]
    rw [if_neg (by simp), if_pos (by simp)]
    rw [← List.append_assoc, ← List.append_assoc]
    exact congrArg (· ++ c) (by decide)
  have hdrop : ((r"/meet/").data ++ c).drop 6 = c := drop_append_of_length (by decide)
  have hstrip := stripTrailingSlashes_eq_self (meetCode_no_slash hc)
  simp only [parseGoogleMeet]
  rw [htrim, if_neg hne, hmcf, if_neg Bool.false_ne_true, hraw,
    URL.parse_gco (meetseg_pathWf hc)]
  have h2 := meetFromUrl_gco_code (meetseg_pre c) (by rw [hdrop, hstrip]; exact hc)
  rw [hdrop, hstrip] at h2
  exact h2

theorem lookupMatch_of_shape_upper {tok : List Char} (hne : tok ≠ [])
    (hns : ∀ c ∈ tok, ¬ c = '/') :
    lookupMatch ((r"/LOOKUP/").data ++ tok) = some tok := by
  unfold lookupMatch
  rw [take_append_of_length (by decide), drop_append_of_length (by decide)]
  have hcond : ((List.map lowerChar (r"/LOOKUP/").data ==
      ['/', 'l', 'o', 'o', 'k', 'u', 'p', '/']) && (!(tok == [])) &&
      tok.all (fun c => !(c == '/'))) = true := by
    rw [Bool.and_eq_true, Bool.and_eq_true]
    refine ⟨⟨by decide, ?_⟩, ?_⟩
    · rw [Bool.not_eq_true', beq_eq_false_iff_ne]
      exact hne
    · exact List.all_eq_true.mpr (fun c hc => by
        rw [beq_eq_false_iff_ne.mpr (hns c hc)]
        rfl)
  rw [if_pos hcond]

theorem lookupUpper_pathWf {tok : List Char} (hne : tok ≠ [])
    (hns : ∀ c ∈ tok, ¬ c = '/') (hch : ∀ c ∈ tok, pathCharOk c = true)
    (hseg : segOk tok = true) : pathWf ((r"/LOOKUP/").data ++ tok) = true := by
  show pathWf (('/' :: ((r"LOOKUP").data ++ ['/'])) ++ tok) = true
  exact pathWf_lit_append (by decide) (by decide) (by decide) hne hns hch hseg

theorem lookupUrl_upper_split (tok : List Char) :
    (r"https://meet.google.com/LOOKUP/").data ++ tok =
      (r"https://meet.google.com").data ++ ((r"/LOOKUP/").data ++ tok) := by
  rw [show (r"https://meet.google.com/LOOKUP/").data =
    (r"https://meet.google.com").data ++ (r"/LOOKUP/").data from by decide,
    List.append_assoc]

theorem parseGoogleMeet_lookup_upper {tok : List Char} (hne : tok ≠ [])
    (hns : ∀ c ∈ tok, ¬ c = '/') (hch : ∀ c ∈ tok, pathCharOk c = true)
    (hseg : segOk tok = true) :
    parseGoogleMeet ((r"https://meet.google.com/LOOKUP/").data ++ tok) =
      some (.lookup tok ((r"https://meet.google.com/lookup/").data ++ tok)) := by
  rw [lookupUrl_upper_split]
  have hpw := lookupUpper_pathWf hne hns hch hseg
  have htrim := jsTrim_meet_url hpw
  have hlen : ((r"https://meet.google.com").data ++
      ((r"/LOOKUP/").data ++ tok)).length = 31 + tok.length := by
    rw [List.length_append, List.length_append,
      show (r"https://meet.google.com").data.length = 23 from by decide,
      show (r"/LOOKUP/").data.length = 8 from by decide]
    omega
  have hnen : (r"https://meet.google.com").data ++ ((r"/LOOKUP/").data ++ tok) ≠ [] := by
    intro hx
    rw [hx] at hlen
    simp only [List.length_nil] at hlen
    omega
  have hmc : isMeetCode ((r"https://meet.google.com").data ++
      ((r"/LOOKUP/").data ++ tok)) = false :=
    isMeetCode_false_of_length (by rw [hlen]; omega)
  have hraw := meetRaw_of_scheme htrim (Or.inr (startsHttps_meet _))
  have hstrip : stripTrailingSlashes ((r"/LOOKUP/").data ++ tok) =
      (r"/LOOKUP/").data ++ tok :=
    stripTrailingSlashes_append_no_slash hne hns
  rw [parseGoogleMeet_of_url htrim hnen hmc hraw (URL.parse_meet hpw),
    meetFromUrl_meet_host, hstrip, lookupMatch_of_shape_upper hne hns]

theorem isMeetCode_of_map_lowerChar {l : List Char}
    (h : isMeetCode (l.map lowerChar) = true) : isMeetCode l = true := by
  obtain ⟨h1, h2, h3, h4⟩ := isMeetCode_extract h
  rw [List.length_map] at h1
  rw [getD_map_of_lt (by omega)] at h2
  rw [getD_map_of_lt (by omega)] at h3
  apply isMeetCode_mk h1 (lowerChar_eq_keep (by decide) h2)
    (lowerChar_eq_keep (by decide) h3)
  intro i hi
  have hi12 : i < 12 := by
    simp only [List.mem_cons, List.mem_singleton, List.not_mem_nil, or_false] at hi
    rcases hi with rfl | rfl | rfl | rfl | rfl | rfl | rfl | rfl | rfl | rfl <;> omega
  have hv := h4 i hi
  rw [getD_map_of_lt (by omega), lowerChar_isAlpha] at hv
  exact hv

theorem meetRaw_nil {s : List Char} (h : jsTrim s = []) : meetRaw s = [] := by
  simp only [meetRaw, h]
  decide

theorem waRaw_nil {s : List Char} (h : jsTrim s = []) : waRaw s = [] := by
  simp only [waRaw, h]
  decide

theorem parseGoogleMeet_of_code {x : List Char} (hx : isMeetCode (jsTrim x) = true) :
    parseGoogleMeet x = some (.code ((jsTrim x).map lowerChar)
      ((r"https://meet.google.com/").data ++ (jsTrim x).map lowerChar)) := by
  simp only [parseGoogleMeet]
  rw [if_neg (meetCode_ne_nil hx), if_pos hx]

theorem parseGoogleMeet_none_host {s : List Char} {u : URL}
    (hmc : isMeetCode (jsTrim s) = false) (hu : URL.parse (meetRaw s) = some u)
    (hg : ¬ u.host = (r"g.co").data) (hm : ¬ u.host = (r"meet.google.com").data) :
    parseGoogleMeet s = none := by
  by_cases h0 : jsTrim s = []
  · simp only [parseGoogleMeet]
    rw [if_pos h0]
  · simp only [parseGoogleMeet]
    rw [if_neg h0, hmc, if_neg Bool.false_ne_true, hu]
    show meetFromUrl u = none
    unfold meetFromUrl
    rw [if_neg (by rintro ⟨h1, -⟩; exact hg h1), if_pos hm]

theorem parseGoogleMeet_none_parse {s : List Char}
    (hmc : isMeetCode (jsTrim s) = false) (hp : URL.parse (meetRaw s) = none) :
    parseGoogleMeet s = none := by
  by_cases h0 : jsTrim s = []
  · simp only [parseGoogleMeet]
    rw [if_pos h0]
  · simp only [parseGoogleMeet]
    rw [if_neg h0, hmc, if_neg Bool.false_ne_true, hp]

theorem parseWhatsAppGroupLink_none_host {t : List Char} {v : URL}
    (hv : URL.parse (waRaw t) = some v)
    (hw : ¬ v.host = (r"chat.whatsapp.com").data) :
    parseWhatsAppGroupLink t = none := by
  by_cases h0 : jsTrim t = []
  · simp only [parseWhatsAppGroupLink]
    rw [if_pos h0]
  · simp only [parseWhatsAppGroupLink]
    rw [if_neg h0, hv]
    show waFromUrl v = none
    unfold waFromUrl
    rw [if_pos hw]

theorem parseWhatsAppGroupLink_none_parse {t : List Char}
    (hp : URL.parse (waRaw t) = none) : parseWhatsAppGroupLink t = none := by
  by_cases h0 : jsTrim t = []
  · simp only [parseWhatsAppGroupLink]
    rw [if_pos h0]
  · simp only [parseWhatsAppGroupLink]
    rw [if_neg h0, hp]

/-! The claims. -/

/-- C1, counterexample to the claim as stated: resolving the short-redirect
URL https://g.co/meet/foo succeeds through the Path sub-case, but the url
field of the result is the original g.co URL string: it parses to host g.co,
which is not the canonical host meet.google.com, and the string does not even
start with https://meet.google.com. -/
theorem claim_C1_counterexample :
    parseGoogleMeet ((r"https://g.co/meet/foo").data) =
      some (.url ((r"/meet/foo").data) ((r"https://g.co/meet/foo").data)) ∧
    URL.parse ((r"https://g.co/meet/foo").data) =
      some ⟨Scheme.https, (r"g.co").data, [], (r"/meet/foo").data, [], []⟩ ∧
    ¬ (r"g.co").data = (r"meet.google.com").data ∧
    (r"https://meet.google.com").data.isPrefixOf
      ((r"https://g.co/meet/foo").data) = false :=
  ⟨by decide, by decide, by decide, by decide⟩

/-- C1, corrected: on every successful parse the url field is a well-formed
absolute URL that reparses to an https URL on the canonical host
meet.google.com, EXCEPT in the Path sub-case reached through the
short-redirect host g.co, where the url field preserves the original resolved
URL string (host g.co, scheme as resolved from the input). -/
theorem claim_C1 (s : List Char) (res : ParsedMeet)
    (h : parseGoogleMeet s = some res) :
    (∃ u, URL.parse res.getUrl = some u ∧ u.wf = true ∧
      u.scheme = Scheme.https ∧ u.host = (r"meet.google.com").data) ∨
    (∃ u, URL.parse (meetRaw s) = some u ∧ u.host = (r"g.co").data ∧
      res.getUrl = u.toString) := by
  rcases parseGoogleMeet_inv h with ⟨hmc, rfl⟩ | ⟨u, hu, hfu⟩
  · left
    have hp := pathWf_of_code (isMeetCode_map_lowerChar hmc)
    refine ⟨⟨Scheme.https, (r"meet.google.com").data, [],
      '/' :: (jsTrim s).map lowerChar, [], []⟩, ?_, wf_mk_simple (Or.inl rfl) hp,
      rfl, rfl⟩
    show URL.parse ((r"https://meet.google.com/").data ++ (jsTrim s).map lowerChar) = _
    rw [codeUrl_split]
    exact URL.parse_meet hp
  · rcases meetFromUrl_inv hfu with ⟨hhost, hpre, hmcr, rfl⟩ |
      ⟨hhost, hpre, hmcr, hrne, rfl⟩ | ⟨hhost, tok, hlm, rfl⟩ |
      ⟨hhost, hlm, c, hsc, rfl⟩ | ⟨hhost, hlm, hsc, hne, hnr, rfl⟩
    · left
      have hp := pathWf_of_code (isMeetCode_map_lowerChar hmcr)
      refine ⟨⟨Scheme.https, (r"meet.google.com").data, [],
        '/' :: (stripTrailingSlashes (u.pathname.drop 6)).map lowerChar, [], []⟩,
        ?_, wf_mk_simple (Or.inl rfl) hp, rfl, rfl⟩
      show URL.parse ((r"https://meet.google.com/").data ++
        (stripTrailingSlashes (u.pathname.drop 6)).map lowerChar) = _
      rw [codeUrl_split]
      exact URL.parse_meet hp
    · exact Or.inr ⟨u, hu, hhost, rfl⟩
    · left
      obtain ⟨hne, hns, hch, hseg⟩ := lookup_tok_facts (URL.parse_wf hu) hlm
      have hp := pathWf_of_lookup hne hns hch hseg
      refine ⟨⟨Scheme.https, (r"meet.google.com").data, [],
        (r"/lookup/").data ++ tok, [], []⟩, ?_, wf_mk_simple (Or.inl rfl) hp,
        rfl, rfl⟩
      show URL.parse ((r"https://meet.google.com/lookup/").data ++ tok) = _
      rw [lookupUrl_split]
      exact URL.parse_meet hp
    · left
      have hp := pathWf_of_code
        (isMeetCode_map_lowerChar (slashCodeMatch_some_inv hsc).2)
      refine ⟨⟨Scheme.https, (r"meet.google.com").data, [],
        '/' :: c.map lowerChar, [], []⟩, ?_, wf_mk_simple (Or.inl rfl) hp,
        rfl, rfl⟩
      show URL.parse ((r"https://meet.google.com/").data ++ c.map lowerChar) = _
      rw [codeUrl_split]
      exact URL.parse_meet hp
    · left
      have hpw : pathWf u.pathname = true :=
        (URL.wf_extract (URL.parse_wf hu)).2.2.2.2.2.2.2.1
      have hp := pathWf_strip hpw hne
      exact ⟨⟨Scheme.https, (r"meet.google.com").data, [],
        stripTrailingSlashes u.pathname, [], []⟩, URL.parse_meet hp,
        wf_mk_simple (Or.inl rfl) hp, rfl, rfl⟩

/-- Witness for C1 at the bare code abc-defg-hij. -/
theorem claim_C1_witness :
    (∃ u, URL.parse (ParsedMeet.getUrl (.code ((r"abc-defg-hij").data)
        ((r"https://meet.google.com/abc-defg-hij").data))) = some u ∧
      u.wf = true ∧ u.scheme = Scheme.https ∧
      u.host = (r"meet.google.com").data) ∨
    (∃ u, URL.parse (meetRaw ((r"abc-defg-hij").data)) = some u ∧
      u.host = (r"g.co").data ∧
      (ParsedMeet.getUrl (.code ((r"abc-defg-hij").data)
        ((r"https://meet.google.com/abc-defg-hij").data))) = u.toString) :=
  claim_C1 ((r"abc-defg-hij").data)
    (.code ((r"abc-defg-hij").data)
      ((r"https://meet.google.com/abc-defg-hij").data)) (by decide)

/-- C2: idempotence of resolution. If parseGoogleMeet succeeds on x, then
resolving the canonical url of its result succeeds with an equal result; if
parseWhatsAppGroupLink succeeds on x, then resolving its normalized output
returns that output unchanged. -/
theorem claim_C2 (x : List Char) :
    (∀ res : ParsedMeet, parseGoogleMeet x = some res →
      parseGoogleMeet res.getUrl = some res) ∧
    (∀ out : List Char, parseWhatsAppGroupLink x = some out →
      parseWhatsAppGroupLink out = some out) :=
  ⟨fun _ h => parseGoogleMeet_idem h, fun _ h => parseWhatsAppGroupLink_idem h⟩

/-- Witness for C2 at a bare meeting code and a WhatsApp invite link. -/
theorem claim_C2_witness :
    parseGoogleMeet (ParsedMeet.getUrl (.code ((r"abc-defg-hij").data)
        ((r"https://meet.google.com/abc-defg-hij").data))) =
      some (.code ((r"abc-defg-hij").data)
        ((r"https://meet.google.com/abc-defg-hij").data)) ∧
    parseWhatsAppGroupLink ((r"https://chat.whatsapp.com/AbCdEfGhIj").data) =
      some ((r"https://chat.whatsapp.com/AbCdEfGhIj").data) :=
  ⟨(claim_C2 ((r"abc-defg-hij").data)).1 _ (by decide),
   (claim_C2 ((r"https://chat.whatsapp.com/AbCdEfGhIj").data)).2 _ (by decide)⟩

/-- C3: the Group Invite Resolver succeeds exactly when the (trimmed,
scheme-completed) input parses as a URL with host chat.whatsapp.com whose
first non-empty path segment is an invite token (10 or more characters from
A-Za-z0-9_-); on success it returns https://chat.whatsapp.com/<token>,
discarding everything after the first segment.  A 9-character token is
rejected and a 10-character valid token is accepted. -/
theorem claim_C3 (s : List Char) :
    ((∃ out, parseWhatsAppGroupLink s = some out) ↔
      (∃ u tok, URL.parse (waRaw s) = some u ∧
        u.host = (r"chat.whatsapp.com").data ∧ firstSeg u.pathname = some tok ∧
        isInviteToken tok = true)) ∧
    (∀ u tok, URL.parse (waRaw s) = some u →
      u.host = (r"chat.whatsapp.com").data → firstSeg u.pathname = some tok →
      isInviteToken tok = true →
      parseWhatsAppGroupLink s =
        some ((r"https://chat.whatsapp.com/").data ++ tok)) ∧
    parseWhatsAppGroupLink ((r"https://chat.whatsapp.com/AbCdEfGhI").data) = none ∧
    parseWhatsAppGroupLink ((r"https://chat.whatsapp.com/AbCdEfGhIj").data) =
      some ((r"https://chat.whatsapp.com/AbCdEfGhIj").data) := by
  have hall : ∀ u tok, URL.parse (waRaw s) = some u →
      u.host = (r"chat.whatsapp.com").data → firstSeg u.pathname = some tok →
      isInviteToken tok = true →
      parseWhatsAppGroupLink s =
        some ((r"https://chat.whatsapp.com/").data ++ tok) := by
    intro u tok hu hh hfs hinv
    have h0 : jsTrim s ≠ [] := by
      intro h00
      rw [waRaw_nil h00] at hu
      have hpn : URL.parse ([] : List Char) = none := by decide
      rw [hpn] at hu
      exact absurd hu (by simp)
    simp only [parseWhatsAppGroupLink]
    rw [if_neg h0, hu]
    show waFromUrl u = _
    unfold waFromUrl
    rw [if_neg (not_not_intro hh), hfs]
    show (if isInviteToken tok = true then
        some ((r"https://chat.whatsapp.com/").data ++ tok) else none) = _
    rw [if_pos hinv]
  refine ⟨⟨?_, ?_⟩, hall, by decide, by decide⟩
  · rintro ⟨out, hout⟩
    obtain ⟨u, hu, hfu⟩ := parseWhatsAppGroupLink_inv hout
    obtain ⟨hh, tok, hfs, hinv, rfl⟩ := waFromUrl_inv hfu
    exact ⟨u, tok, hu, hh, hfs, hinv⟩
  · rintro ⟨u, tok, hu, hh, hfs, hinv⟩
    exact ⟨_, hall u tok hu hh hfs hinv⟩

/-- Witness for C3: a link with a sub-path after the token normalizes to the
host plus the first segment only. -/
theorem claim_C3_witness :
    parseWhatsAppGroupLink
        ((r"https://chat.whatsapp.com/AbCdEfGhIj/extra?x=1").data) =
      some ((r"https://chat.whatsapp.com/").data ++ (r"AbCdEfGhIj").data) :=
  (claim_C3 ((r"https://chat.whatsapp.com/AbCdEfGhIj/extra?x=1").data)).2.1
    ⟨Scheme.https, (r"chat.whatsapp.com").data, [],
      (r"/AbCdEfGhIj/extra").data, (r"?x=1").data, []⟩
    ((r"AbCdEfGhIj").data) (by decide) (by decide) (by decide) (by decide)

/-- C4: bare-code parsing with case normalization.  Any input whose trimmed
form matches the meeting-code grammar (in any letter case) succeeds as the
Code variant with the code lowercased and url
https://meet.google.com/<code>, and any two inputs with the same lowercased
trimmed form resolve identically. -/
theorem claim_C4 (s t : List Char) (hs : isMeetCode (jsTrim s) = true)
    (ht : (jsTrim t).map lowerChar = (jsTrim s).map lowerChar) :
    parseGoogleMeet s = some (.code ((jsTrim s).map lowerChar)
      ((r"https://meet.google.com/").data ++ (jsTrim s).map lowerChar)) ∧
    parseGoogleMeet t = parseGoogleMeet s := by
  have hst : isMeetCode (jsTrim t) = true := by
    have hm := isMeetCode_map_lowerChar hs
    rw [← ht] at hm
    exact isMeetCode_of_map_lowerChar hm
  refine ⟨parseGoogleMeet_of_code hs, ?_⟩
  rw [parseGoogleMeet_of_code hs, parseGoogleMeet_of_code hst, ht]

/-- Witness for C4 at the codes ABC-DEFG-HIJ and aBc-DeFg-hIj. -/
theorem claim_C4_witness :
    parseGoogleMeet ((r"ABC-DEFG-HIJ").data) =
      some (.code ((jsTrim ((r"ABC-DEFG-HIJ").data)).map lowerChar)
        ((r"https://meet.google.com/").data ++
          (jsTrim ((r"ABC-DEFG-HIJ").data)).map lowerChar)) ∧
    parseGoogleMeet ((r"aBc-DeFg-hIj").data) =
      parseGoogleMeet ((r"ABC-DEFG-HIJ").data) :=
  claim_C4 ((r"ABC-DEFG-HIJ").data) ((r"aBc-DeFg-hIj").data)
    (by decide) (by decide)

/-- C5: redirect unwrapping.  For every valid meeting code c, the
short-redirect URL https://g.co/meet/<c> and its schemeless form
g.co/meet/<c> resolve to exactly the same Code result as the bare code c. -/
theorem claim_C5 (c : List Char) (hc : isMeetCode c = true) :
    parseGoogleMeet ((r"https://g.co/meet/").data ++ c) = parseGoogleMeet c ∧
    parseGoogleMeet ((r"g.co/meet/").data ++ c) = parseGoogleMeet c ∧
    parseGoogleMeet c = some (.code (c.map lowerChar)
      ((r"https://meet.google.com/").data ++ c.map lowerChar)) := by
  have hbare : parseGoogleMeet c = some (.code (c.map lowerChar)
      ((r"https://meet.google.com/").data ++ c.map lowerChar)) := by
    have h1 := parseGoogleMeet_of_code (x := c) (by rw [jsTrim_of_meetCode hc]; exact hc)
    rw [jsTrim_of_meetCode hc] at h1
    exact h1
  exact ⟨by rw [parseGoogleMeet_gco_meet_code hc, hbare],
    by rw [parseGoogleMeet_gco_bare hc, hbare], hbare⟩

/-- Witness for C5 at the mixed-case code AbC-dEfG-hIj. -/
theorem claim_C5_witness :
    (parseGoogleMeet ((r"https://g.co/meet/").data ++ (r"AbC-dEfG-hIj").data) =
      parseGoogleMeet ((r"AbC-dEfG-hIj").data)) ∧
    (parseGoogleMeet ((r"g.co/meet/").data ++ (r"AbC-dEfG-hIj").data) =
      parseGoogleMeet ((r"AbC-dEfG-hIj").data)) ∧
    parseGoogleMeet ((r"AbC-dEfG-hIj").data) =
      some (.code (((r"AbC-dEfG-hIj").data).map lowerChar)
        ((r"https://meet.google.com/").data ++
          ((r"AbC-dEfG-hIj").data).map lowerChar)) :=
  claim_C5 ((r"AbC-dEfG-hIj").data) (by decide)

/-- C6: lookup handling.  Any input resolving to a URL on the canonical host
whose path, after stripping trailing slashes, is /lookup/<token> with token
one or more non-slash characters succeeds as Lookup with the token verbatim
and url https://meet.google.com/lookup/<token>. -/
theorem claim_C6 (s : List Char) (u : URL) (tok : List Char)
    (hu : URL.parse (meetRaw s) = some u)
    (hmc : isMeetCode (jsTrim s) = false)
    (hhost : u.host = (r"meet.google.com").data)
    (hshape : stripTrailingSlashes u.pathname = (r"/lookup/").data ++ tok)
    (hne : tok ≠ []) (hns : ∀ a ∈ tok, ¬ a = '/') :
    parseGoogleMeet s = some (.lookup tok
      ((r"https://meet.google.com/lookup/").data ++ tok)) := by
  have h0 : jsTrim s ≠ [] := by
    intro h00
    rw [meetRaw_nil h00] at hu
    have hpn : URL.parse ([] : List Char) = none := by decide
    rw [hpn] at hu
    exact absurd hu (by simp)
  simp only [parseGoogleMeet]
  rw [if_neg h0, hmc, if_neg Bool.false_ne_true, hu]
  show meetFromUrl u = _
  unfold meetFromUrl
  rw [if_neg (by
      rintro ⟨h1, -⟩
      rw [hhost] at h1
      exact absurd h1 (by decide)),
    if_neg (not_not_intro hhost), hshape, lookupMatch_of_shape hne hns]

/-- Witness for C6 at https://meet.google.com/lookup/xyz123. -/
theorem claim_C6_witness :
    parseGoogleMeet ((r"https://meet.google.com/lookup/xyz123").data) =
      some (.lookup ((r"xyz123").data)
        ((r"https://meet.google.com/lookup/").data ++ (r"xyz123").data)) :=
  claim_C6 ((r"https://meet.google.com/lookup/xyz123").data)
    ⟨Scheme.https, (r"meet.google.com").data, [], (r"/lookup/xyz123").data, [], []⟩
    ((r"xyz123").data) (by decide) (by decide) (by decide) (by decide)
    (by decide) (by decide)

/-- C7: grammar rejection.  Inputs whose hyphenated segments have the wrong
lengths, such as ab-cdef-ghi and abc-de-fgh, are rejected by the Meet
Reference Resolver. -/
theorem claim_C7 :
    parseGoogleMeet ((r"ab-cdef-ghi").data) = none ∧
    parseGoogleMeet ((r"abc-de-fgh").data) = none :=
  ⟨by decide, by decide⟩

/-- C8: the Generic URL Normalizer agrees, on every input, with the function
written directly from the specification text: trim; empty stays empty; an
http:// or https:// prefix is kept unchanged; anything else gets https://
prepended, with no other change. -/
theorem claim_C8 (s : List Char) :
    normalizeExternalUrl s = normalizeExternalUrlSpec s := by
  simp only [normalizeExternalUrl, normalizeExternalUrlSpec]
  by_cases h0 : jsTrim s = []
  · rw [if_pos h0, if_pos h0, h0]
  · rw [if_neg h0, if_neg h0]
    rcases h1 : (r"http://").data.isPrefixOf (jsTrim s) <;>
      rcases h2 : (r"https://").data.isPrefixOf (jsTrim s) <;>
      simp [h1, h2]

/-- Witness for C8 on a schemeless input with surrounding blanks. -/
theorem claim_C8_witness :
    normalizeExternalUrl ((r"  example.com/x  ").data) =
      normalizeExternalUrlSpec ((r"  example.com/x  ").data) :=
  claim_C8 ((r"  example.com/x  ").data)

/-- C9: no-exception failure mode.  Both resolvers are total functions into
an option type; every failure returns none, and a host-mismatched but
syntactically valid URL gives the very same result (none) as input that does
not parse as a URL at all. -/
theorem claim_C9 (s t x y : List Char) (u v : URL)
    (hu : URL.parse (meetRaw s) = some u) (hsc : isMeetCode (jsTrim s) = false)
    (hg : ¬ u.host = (r"g.co").data) (hm : ¬ u.host = (r"meet.google.com").data)
    (hv : URL.parse (waRaw t) = some v)
    (hw : ¬ v.host = (r"chat.whatsapp.com").data)
    (hx : URL.parse (meetRaw x) = none) (hxc : isMeetCode (jsTrim x) = false)
    (hy : URL.parse (waRaw y) = none) :
    parseGoogleMeet s = none ∧ parseWhatsAppGroupLink t = none ∧
    parseGoogleMeet x = none ∧ parseWhatsAppGroupLink y = none ∧
    parseGoogleMeet s = parseGoogleMeet x ∧
    parseWhatsAppGroupLink t = parseWhatsAppGroupLink y := by
  have a1 := parseGoogleMeet_none_host hsc hu hg hm
  have a2 := parseWhatsAppGroupLink_none_host hv hw
  have a3 := parseGoogleMeet_none_parse hxc hx
  have a4 := parseWhatsAppGroupLink_none_parse hy
  exact ⟨a1, a2, a3, a4, by rw [a1, a3], by rw [a2, a4]⟩

/-- Witness for C9: a URL on an unrecognized host and non-URL garbage are
both rejected, indistinguishably. -/
theorem claim_C9_witness :
    parseGoogleMeet ((r"https://example.com/page").data) = none ∧
    parseWhatsAppGroupLink ((r"https://example.com/page").data) = none ∧
    parseGoogleMeet ((r"not a link").data) = none ∧
    parseWhatsAppGroupLink ((r"not a link").data) = none ∧
    parseGoogleMeet ((r"https://example.com/page").data) =
      parseGoogleMeet ((r"not a link").data) ∧
    parseWhatsAppGroupLink ((r"https://example.com/page").data) =
      parseWhatsAppGroupLink ((r"not a link").data) :=
  claim_C9 ((r"https://example.com/page").data)
    ((r"https://example.com/page").data) ((r"not a link").data)
    ((r"not a link").data)
    ⟨Scheme.https, (r"example.com").data, [], (r"/page").data, [], []⟩
    ⟨Scheme.https, (r"example.com").data, [], (r"/page").data, [], []⟩
    (by decide) (by decide) (by decide) (by decide) (by decide) (by decide)
    (by decide) (by decide) (by decide)

/-- C10: the literal path prefixes are matched case-insensitively.  A URL
https://meet.google.com/LOOKUP/<token> succeeds as Lookup with the token's
own case preserved verbatim (and the rebuilt url in lowercase), and a
redirect URL https://g.co/MEET/<code> is recognized by the redirect
branch. -/
theorem claim_C10 (tok c : List Char) (hne : tok ≠ [])
    (hns : ∀ a ∈ tok, ¬ a = '/') (hch : ∀ a ∈ tok, pathCharOk a = true)
    (hseg : segOk tok = true) (hc : isMeetCode c = true) :
    parseGoogleMeet ((r"https://meet.google.com/LOOKUP/").data ++ tok) =
      some (.lookup tok ((r"https://meet.google.com/lookup/").data ++ tok)) ∧
    parseGoogleMeet ((r"https://g.co/MEET/").data ++ c) =
      some (.code (c.map lowerChar)
        ((r"https://meet.google.com/").data ++ c.map lowerChar)) :=
  ⟨parseGoogleMeet_lookup_upper hne hns hch hseg,
    parseGoogleMeet_gco_upper_code hc⟩

/-- Witness for C10 at token xYz123 and code abc-defg-hij. -/
theorem claim_C10_witness :
    parseGoogleMeet ((r"https://meet.google.com/LOOKUP/").data ++ (r"xYz123").data) =
      some (.lookup ((r"xYz123").data)
        ((r"https://meet.google.com/lookup/").data ++ (r"xYz123").data)) ∧
    parseGoogleMeet ((r"https://g.co/MEET/").data ++ (r"abc-defg-hij").data) =
      some (.code (((r"abc-defg-hij").data).map lowerChar)
        ((r"https://meet.google.com/").data ++
          ((r"abc-defg-hij").data).map lowerChar)) :=
  claim_C10 ((r"xYz123").data) ((r"abc-defg-hij").data) (by decide) (by decide)
    (by decide) (by decide) (by decide)
